import Mathlib

/-!
Formal model of the ASXR "Multi-Hive" virtual orchestration core:
the SCX compact codec (`lib/scx/codec.js`), the XJSON normalizer
(`lib/xjson/parser.js`), the K'uhul glyph VM (`lib/kuhul/vm.js`), and the
hive orchestrator (`server/core/hive-orchestrator.js`).

JavaScript strings are modelled as `List Char` (one `Char` per UTF-16 unit;
every string in play is within the BMP).  JavaScript numbers are modelled as
integers: no algorithm in the verified core performs arithmetic, and the only
number literals exercised are integral, so IEEE-754 fractional values are out
of scope.  JavaScript objects are modelled as insertion-ordered association
lists, with assignment to an existing key keeping its position, exactly as
JS property assignment and `Map.set` behave.  Thrown exceptions are modelled
with `Except`.
-/

set_option maxHeartbeats 1000000

namespace ASXR

/-- JavaScript strings, one entry per UTF-16 code unit. -/
abbrev Str := List Char

/-- Shorthand turning a Lean string literal into the `Str` model. -/
def S (s : String) : Str := s.data

/-- The apostrophe character (U+0027), written by code point so that glyph
names such as `Ch'en` can be spelled without apostrophes in literals. -/
def apoChar : Char := Char.ofNat 39

/-- The `⟁` sentinel character (U+27C1) used as SCX separator and XJSON
key marker. -/
def sepChar : Char := Char.ofNat 0x27C1

/-- A JavaScript value as it occurs in the core: JSON scalars plus `undefined`
and `NaN` (which arise from missing properties and `parseFloat` on
non-numeric text), arrays, and insertion-ordered objects.  `numDec m e`
carries a non-integral JSON literal `m·10^e` exactly (the repository never
produces one; it exists so the JSON parser accepts the full grammar). -/
inductive JSVal where
  | str (s : Str)
  | num (n : Int)
  | numDec (m : Int) (e : Int)
  | nan
  | bool (b : Bool)
  | null
  | undef
  | arr (items : List JSVal)
  | obj (entries : List (Str × JSVal))

/-- JS property / `Map.set` assignment on an association list: overwriting an
existing key keeps its position, a new key is appended. -/
def jsAssign {α : Type} (m : List (Str × α)) (k : Str) (v : α) : List (Str × α) :=
  match m with
  | [] => [(k, v)]
  | (k', v') :: rest => if k' = k then (k, v) :: rest else (k', v') :: jsAssign rest k v

/-- Association-list lookup (JS `Map.get` / property read, `none` standing
for `undefined`). -/
def jsGet {α : Type} (m : List (Str × α)) (k : Str) : Option α :=
  match m with
  | [] => none
  | (k', v') :: rest => if k' = k then some v' else jsGet rest k

/-- The keys of an association list, in order. -/
def mapKeys {α : Type} (m : List (Str × α)) : List Str := m.map Prod.fst

/-- How many entries of the association list carry the key `k`. -/
def keyCount {α : Type} (m : List (Str × α)) (k : Str) : Nat :=
  match m with
  | [] => 0
  | (k', _) :: rest => (if k' = k then 1 else 0) + keyCount rest k

theorem jsGet_jsAssign_self {α : Type} (m : List (Str × α)) (k : Str) (v : α) :
    jsGet (jsAssign m k v) k = some v := by
  induction m with
  | nil => simp [jsAssign, jsGet]
  | cons p rest ih =>
    obtain ⟨k', v'⟩ := p
    by_cases h : k' = k <;> simp [jsAssign, jsGet, h, ih]

theorem jsGet_jsAssign_ne {α : Type} (m : List (Str × α)) (k k' : Str) (v : α)
    (h : k' ≠ k) : jsGet (jsAssign m k v) k' = jsGet m k' := by
  induction m with
  | nil => simp [jsAssign, jsGet, Ne.symm h]
  | cons p rest ih =>
    obtain ⟨k₀, v₀⟩ := p
    by_cases h0 : k₀ = k
    · simp [jsAssign, jsGet, h0, Ne.symm h, h]
    · by_cases h1 : k₀ = k'
      · subst h1
        simp [jsAssign, jsGet, h]
      · simp [jsAssign, jsGet, h0, h1, ih]

theorem keyCount_jsAssign_self {α : Type} (m : List (Str × α)) (k : Str) (v : α)
    (h : keyCount m k ≤ 1) : keyCount (jsAssign m k v) k = 1 := by
  induction m with
  | nil => simp [jsAssign, keyCount]
  | cons p rest ih =>
    obtain ⟨k', v'⟩ := p
    by_cases hk : k' = k
    · simp only [keyCount, if_pos hk] at h
      have h0 : keyCount rest k = 0 := by omega
      simp [jsAssign, hk, keyCount, h0]
    · simp only [keyCount, if_neg hk, Nat.zero_add] at h
      simp [jsAssign, hk, keyCount, ih h]

theorem keyCount_jsAssign_ne {α : Type} (m : List (Str × α)) (k k' : Str) (v : α)
    (h : k' ≠ k) : keyCount (jsAssign m k v) k' = keyCount m k' := by
  induction m with
  | nil => simp [jsAssign, keyCount, Ne.symm h]
  | cons p rest ih =>
    obtain ⟨k₀, v₀⟩ := p
    by_cases h0 : k₀ = k
    · simp [jsAssign, h0, keyCount, Ne.symm h]
    · simp [jsAssign, h0, keyCount, ih]

/-! ## XJSON normalizer (`lib/xjson/parser.js`, `XJSONParser.normalize`)

`normalize` maps arrays elementwise, and rebuilds objects assigning each
entry under its key with one leading `⟁` stripped (`key.startsWith(prefix) ?
key.slice(1) : key`), recursing into values.  Scalars are returned as-is. -/

/-- Strip one leading `⟁` from a key, as `normalize` does. -/
def stripPrefKey (k : Str) : Str :=
  match k with
  | c :: rest => if c = sepChar then rest else c :: rest
  | [] => []

mutual

/-- `XJSONParser.normalize`. -/
def normalize : JSVal → JSVal
  | .arr l => .arr (normalizeList l)
  | .obj kvs => .obj (normalizeObj [] kvs)
  | v => v

/-- `normalize` mapped over an array's items. -/
def normalizeList : List JSVal → List JSVal
  | [] => []
  | v :: rest => normalize v :: normalizeList rest

/-- The `for (const [key, value] of Object.entries(obj))` loop of
`normalize`, accumulating into the fresh object via JS assignment. -/
def normalizeObj (acc : List (Str × JSVal)) : List (Str × JSVal) → List (Str × JSVal)
  | [] => acc
  | (k, v) :: rest => normalizeObj (jsAssign acc (stripPrefKey k) (normalize v)) rest

end

/-- Does the string start with the `⟁` marker? -/
def sepHead : Str → Bool
  | c :: _ => c = sepChar
  | [] => false

/-- Boolean membership of a string in a list of strings. -/
def strMem (k : Str) : List Str → Bool
  | [] => false
  | k' :: rest => k' = k || strMem k rest

mutual

/-- No key anywhere in the tree starts with two `⟁` markers (so one
`normalize` pass removes every marker it is going to remove). -/
def noDoublePref : JSVal → Bool
  | .arr l => noDoublePrefList l
  | .obj kvs => noDoublePrefObj kvs
  | _ => true

/-- `noDoublePref` over array items. -/
def noDoublePrefList : List JSVal → Bool
  | [] => true
  | v :: rest => noDoublePref v && noDoublePrefList rest

/-- `noDoublePref` over object entries. -/
def noDoublePrefObj : List (Str × JSVal) → Bool
  | [] => true
  | (k, v) :: rest => !sepHead (stripPrefKey k) && noDoublePref v && noDoublePrefObj rest

end

mutual

/-- Normal-form trees: every object has pairwise-distinct keys, none starting
with `⟁`, recursively.  `normalize` is the identity on these. -/
def normalPlain : JSVal → Bool
  | .arr l => normalPlainList l
  | .obj kvs => normalPlainObj kvs
  | _ => true

/-- `normalPlain` over array items. -/
def normalPlainList : List JSVal → Bool
  | [] => true
  | v :: rest => normalPlain v && normalPlainList rest

/-- `normalPlain` over object entries. -/
def normalPlainObj : List (Str × JSVal) → Bool
  | [] => true
  | (k, v) :: rest =>
    !sepHead k && !strMem k (mapKeys rest) && normalPlain v && normalPlainObj rest

end

theorem stripPrefKey_of_not_sepHead {k : Str} (h : sepHead k = false) :
    stripPrefKey k = k := by
  cases k with
  | nil => rfl
  | cons c rest =>
    simp only [sepHead, decide_eq_false_iff_not] at h
    simp [stripPrefKey, h]

theorem jsAssign_of_not_mem {α : Type} {m : List (Str × α)} {k : Str} (v : α)
    (h : strMem k (mapKeys m) = false) : jsAssign m k v = m ++ [(k, v)] := by
  induction m with
  | nil => rfl
  | cons p rest ih =>
    obtain ⟨k', v'⟩ := p
    simp only [mapKeys, List.map_cons, strMem, Bool.or_eq_false_iff,
      decide_eq_false_iff_not] at h
    simp [jsAssign, h.1, ih (by simpa [mapKeys] using h.2)]

theorem strMem_mapKeys_jsAssign {α : Type} (m : List (Str × α)) (k x : Str) (v : α) :
    strMem x (mapKeys (jsAssign m k v)) =
      (strMem x (mapKeys m) || (decide (k = x))) := by
  induction m with
  | nil => simp [jsAssign, mapKeys, strMem]
  | cons p rest ih =>
    obtain ⟨k', v'⟩ := p
    by_cases h : k' = k
    · subst h
      simp only [jsAssign, if_pos rfl, mapKeys, List.map_cons, strMem]
      by_cases hx : k' = x <;> simp [hx]
    · simp only [jsAssign, if_neg h, mapKeys, List.map_cons, strMem]
      simp only [mapKeys] at ih
      rw [ih, Bool.or_assoc]

theorem mem_jsAssign {α : Type} {k : Str} {v : α} {p : Str × α} :
    ∀ {m : List (Str × α)}, p ∈ jsAssign m k v → p ∈ m ∨ p = (k, v)
  | [], h => by simpa [jsAssign] using h
  | (k', v') :: rest, h => by
    by_cases hk : k' = k
    · rw [show jsAssign ((k', v') :: rest) k v = (k, v) :: rest by simp [jsAssign, hk]] at h
      rcases List.mem_cons.mp h with h1 | h1
      · exact Or.inr h1
      · exact Or.inl (List.mem_cons_of_mem _ h1)
    · rw [show jsAssign ((k', v') :: rest) k v = (k', v') :: jsAssign rest k v by
        simp [jsAssign, hk]] at h
      rcases List.mem_cons.mp h with h1 | h1
      · exact Or.inl (by simp [h1])
      · rcases mem_jsAssign h1 with h' | h'
        · exact Or.inl (List.mem_cons_of_mem _ h')
        · exact Or.inr h'

theorem normalPlainObj_jsAssign {m : List (Str × JSVal)} {k : Str} {v : JSVal}
    (hm : normalPlainObj m = true) (hk : sepHead k = false)
    (hv : normalPlain v = true) : normalPlainObj (jsAssign m k v) = true := by
  induction m with
  | nil => simp [jsAssign, normalPlainObj, hk, hv, strMem, mapKeys]
  | cons p rest ih =>
    obtain ⟨k', v'⟩ := p
    simp only [normalPlainObj, Bool.and_eq_true, Bool.not_eq_true'] at hm
    obtain ⟨⟨⟨hk', hmem⟩, hv'⟩, hrest⟩ := hm
    by_cases h : k' = k
    · subst h
      simp [jsAssign, normalPlainObj, hk, hv, hmem, hrest]
    · simp only [jsAssign, if_neg h]
      simp only [normalPlainObj, Bool.and_eq_true, Bool.not_eq_true']
      refine ⟨⟨⟨hk', ?_⟩, hv'⟩, ih hrest⟩
      rw [strMem_mapKeys_jsAssign]
      simp [hmem, Ne.symm h]

/-- Structural induction for `JSVal` with membership hypotheses for the
nested lists. -/
theorem JSVal.inductionOn {P : JSVal → Prop}
    (hstr : ∀ s, P (.str s)) (hnum : ∀ n, P (.num n))
    (hnumDec : ∀ m e, P (.numDec m e)) (hnan : P .nan)
    (hbool : ∀ b, P (.bool b)) (hnull : P .null) (hundef : P .undef)
    (harr : ∀ l, (∀ v ∈ l, P v) → P (.arr l))
    (hobj : ∀ kvs, (∀ kv ∈ kvs, P kv.2) → P (.obj kvs)) :
    ∀ v, P v
  | .str s => hstr s
  | .num n => hnum n
  | .numDec m e => hnumDec m e
  | .nan => hnan
  | .bool b => hbool b
  | .null => hnull
  | .undef => hundef
  | .arr l => harr l (fun v hv =>
      JSVal.inductionOn hstr hnum hnumDec hnan hbool hnull hundef harr hobj v)
  | .obj kvs => hobj kvs (fun kv hkv =>
      JSVal.inductionOn hstr hnum hnumDec hnan hbool hnull hundef harr hobj kv.2)
termination_by v => sizeOf v
decreasing_by
  · have := List.sizeOf_lt_of_mem hv
    simp only [JSVal.arr.sizeOf_spec]
    omega
  · have h1 := List.sizeOf_lt_of_mem hkv
    obtain ⟨a, b⟩ := kv
    simp only [JSVal.obj.sizeOf_spec, Prod.mk.sizeOf_spec] at *
    omega

theorem strMem_true_iff (k : Str) (l : List Str) : strMem k l = true ↔ k ∈ l := by
  induction l with
  | nil => simp [strMem]
  | cons k' rest ih =>
    simp only [strMem, Bool.or_eq_true, decide_eq_true_eq, List.mem_cons, ih]
    constructor
    · rintro (h | h)
      · exact Or.inl h.symm
      · exact Or.inr h
    · rintro (h | h)
      · exact Or.inl h.symm
      · exact Or.inr h

theorem strMem_append (k : Str) (l1 l2 : List Str) :
    strMem k (l1 ++ l2) = (strMem k l1 || strMem k l2) := by
  induction l1 with
  | nil => simp [strMem]
  | cons k' rest ih => simp [strMem, ih, Bool.or_assoc]

theorem normalPlainList_mem {l : List JSVal} {v : JSVal}
    (h : normalPlainList l = true) (hv : v ∈ l) : normalPlain v = true := by
  induction l with
  | nil => cases hv
  | cons w rest ih =>
    simp only [normalPlainList, Bool.and_eq_true] at h
    rcases List.mem_cons.mp hv with h1 | h1
    · exact h1 ▸ h.1
    · exact ih h.2 h1

theorem normalPlainObj_mem {kvs : List (Str × JSVal)} {kv : Str × JSVal}
    (h : normalPlainObj kvs = true) (hkv : kv ∈ kvs) :
    sepHead kv.1 = false ∧ normalPlain kv.2 = true := by
  induction kvs with
  | nil => cases hkv
  | cons p rest ih =>
    obtain ⟨k, v⟩ := p
    simp only [normalPlainObj, Bool.and_eq_true, Bool.not_eq_true'] at h
    rcases List.mem_cons.mp hkv with h1 | h1
    · subst h1
      exact ⟨h.1.1.1, h.1.2⟩
    · exact ih h.2 h1

theorem noDoublePrefList_mem {l : List JSVal} {v : JSVal}
    (h : noDoublePrefList l = true) (hv : v ∈ l) : noDoublePref v = true := by
  induction l with
  | nil => cases hv
  | cons w rest ih =>
    simp only [noDoublePrefList, Bool.and_eq_true] at h
    rcases List.mem_cons.mp hv with h1 | h1
    · exact h1 ▸ h.1
    · exact ih h.2 h1

theorem noDoublePrefObj_mem {kvs : List (Str × JSVal)} {kv : Str × JSVal}
    (h : noDoublePrefObj kvs = true) (hkv : kv ∈ kvs) :
    sepHead (stripPrefKey kv.1) = false ∧ noDoublePref kv.2 = true := by
  induction kvs with
  | nil => cases hkv
  | cons p rest ih =>
    obtain ⟨k, v⟩ := p
    simp only [noDoublePrefObj, Bool.and_eq_true, Bool.not_eq_true'] at h
    rcases List.mem_cons.mp hkv with h1 | h1
    · subst h1
      exact ⟨h.1.1, h.1.2⟩
    · exact ih h.2 h1

theorem normalizeList_of_all {l : List JSVal} (h : ∀ v ∈ l, normalize v = v) :
    normalizeList l = l := by
  induction l with
  | nil => rfl
  | cons v rest ih =>
    simp only [normalizeList]
    rw [h v (by simp), ih (fun w hw => h w (by simp [hw]))]

theorem normObj_eq_append : ∀ (kvs acc : List (Str × JSVal)),
    normalPlainObj kvs = true →
    (∀ kv ∈ kvs, normalize kv.2 = kv.2) →
    (∀ kv ∈ kvs, strMem kv.1 (mapKeys acc) = false) →
    normalizeObj acc kvs = acc ++ kvs
  | [], acc, _, _, _ => by simp [normalizeObj]
  | (k, v) :: rest, acc, hp, hfix, hdisj => by
    simp only [normalPlainObj, Bool.and_eq_true, Bool.not_eq_true'] at hp
    obtain ⟨⟨⟨hk, hmem⟩, _⟩, hrest⟩ := hp
    have hkfix : stripPrefKey k = k := stripPrefKey_of_not_sepHead hk
    have hvfix : normalize v = v := hfix (k, v) (by simp)
    have hknotacc : strMem k (mapKeys acc) = false := hdisj (k, v) (by simp)
    simp only [normalizeObj, hkfix, hvfix]
    rw [jsAssign_of_not_mem v hknotacc]
    rw [normObj_eq_append rest (acc ++ [(k, v)]) hrest
      (fun kv hkv => hfix kv (List.mem_cons_of_mem _ hkv))
      (fun kv hkv => by
        have h1 : strMem kv.1 (mapKeys acc) = false :=
          hdisj kv (List.mem_cons_of_mem _ hkv)
        have h2 : kv.1 ≠ k := by
          intro he
          have : strMem k (mapKeys rest) = true := by
            rw [strMem_true_iff]
            exact he ▸ List.mem_map_of_mem Prod.fst hkv
          rw [this] at hmem
          cases hmem
        have hmk : mapKeys (acc ++ [(k, v)]) = mapKeys acc ++ [k] := by
          simp [mapKeys]
        rw [hmk, strMem_append, h1]
        simp [strMem, Ne.symm h2])]
    simp

theorem normalize_of_normalPlain : ∀ v, normalPlain v = true → normalize v = v := by
  intro v
  induction v using JSVal.inductionOn with
  | hstr s => intro _; rfl
  | hnum n => intro _; rfl
  | hnumDec m e => intro _; rfl
  | hnan => intro _; rfl
  | hbool b => intro _; rfl
  | hnull => intro _; rfl
  | hundef => intro _; rfl
  | harr l ih =>
    intro hp
    simp only [normalPlain] at hp
    simp only [normalize]
    rw [normalizeList_of_all (fun v hv => ih v hv (normalPlainList_mem hp hv))]
  | hobj kvs ih =>
    intro hp
    simp only [normalPlain] at hp
    simp only [normalize]
    rw [normObj_eq_append kvs [] hp
      (fun kv hkv => ih kv hkv (normalPlainObj_mem hp hkv).2)
      (fun kv _ => rfl)]
    simp

theorem normalPlainList_of_all {l : List JSVal}
    (h : ∀ v ∈ l, normalPlain (normalize v) = true) :
    normalPlainList (normalizeList l) = true := by
  induction l with
  | nil => rfl
  | cons v rest ih =>
    simp only [normalizeList, normalPlainList, Bool.and_eq_true]
    exact ⟨h v (by simp), ih (fun w hw => h w (by simp [hw]))⟩

theorem normObj_plain : ∀ (kvs acc : List (Str × JSVal)),
    (∀ kv ∈ kvs, sepHead (stripPrefKey kv.1) = false ∧
      normalPlain (normalize kv.2) = true) →
    normalPlainObj acc = true →
    normalPlainObj (normalizeObj acc kvs) = true
  | [], _, _, hacc => by simpa [normalizeObj] using hacc
  | (k, v) :: rest, acc, hkv, hacc => by
    simp only [normalizeObj]
    exact normObj_plain rest _ (fun kv h => hkv kv (List.mem_cons_of_mem _ h))
      (normalPlainObj_jsAssign hacc (hkv (k, v) (by simp)).1 (hkv (k, v) (by simp)).2)

theorem normalPlain_normalize : ∀ v, noDoublePref v = true →
    normalPlain (normalize v) = true := by
  intro v
  induction v using JSVal.inductionOn with
  | hstr s => intro _; rfl
  | hnum n => intro _; rfl
  | hnumDec m e => intro _; rfl
  | hnan => intro _; rfl
  | hbool b => intro _; rfl
  | hnull => intro _; rfl
  | hundef => intro _; rfl
  | harr l ih =>
    intro hp
    simp only [noDoublePref] at hp
    simp only [normalize, normalPlain]
    exact normalPlainList_of_all (fun v hv => ih v hv (noDoublePrefList_mem hp hv))
  | hobj kvs ih =>
    intro hp
    simp only [noDoublePref] at hp
    simp only [normalize, normalPlain]
    exact normObj_plain kvs []
      (fun kv hkv => ⟨(noDoublePrefObj_mem hp hkv).1,
        ih kv hkv (noDoublePrefObj_mem hp hkv).2⟩)
      rfl

/-- The tree whose single key carries two `⟁` markers: the claimed
idempotence fails on it. -/
def c7tree : JSVal := .obj [([sepChar, sepChar, 'a'], .null)]

/-- C7 counterexample: `normalize` is not idempotent on all trees.  On
`{"⟁⟁a": null}` the first pass strips one marker (giving key `⟁a`), the
second strips another (giving key `a`), so the results differ. -/
theorem c7_counterexample : normalize (normalize c7tree) ≠ normalize c7tree := by
  intro h
  rw [show normalize c7tree = JSVal.obj [([sepChar, 'a'], JSVal.null)] from rfl] at h
  rw [show normalize (JSVal.obj [([sepChar, 'a'], JSVal.null)])
      = JSVal.obj [(['a'], JSVal.null)] from rfl] at h
  simp at h

/-- C7 (amended): `XJSONParser.normalize` is idempotent on every tree in
which no object key starts with two `⟁` markers (`noDoublePref`); one pass
then leaves a tree `normalize` fixes. -/
theorem c7_normalize_idempotent (x : JSVal) (h : noDoublePref x = true) :
    normalize (normalize x) = normalize x :=
  normalize_of_normalPlain _ (normalPlain_normalize x h)

/-- Witness for C7: the shard-definition-shaped tree `{"⟁id": "users"}`
satisfies the hypothesis and idempotence holds on it. -/
theorem c7_normalize_idempotent_witness :
    noDoublePref (JSVal.obj [([sepChar, 'i', 'd'], .str (S "users"))]) = true ∧
    normalize (normalize (JSVal.obj [([sepChar, 'i', 'd'], .str (S "users"))])) =
      normalize (JSVal.obj [([sepChar, 'i', 'd'], .str (S "users"))]) :=
  ⟨rfl, c7_normalize_idempotent _ rfl⟩

/-! ## JavaScript string primitives used by the SCX codec -/

/-- `String.prototype.split` on a single-character separator. -/
def splitOnPred (p : Char → Bool) : Str → List Str
  | [] => [[]]
  | c :: rest =>
    if p c then [] :: splitOnPred p rest
    else
      match splitOnPred p rest with
      | h :: t => (c :: h) :: t
      | [] => [[c]]

/-- `Array.prototype.join` on a single-character separator. -/
def joinChar (sep : Char) : List Str → Str
  | [] => []
  | [part] => part
  | part :: rest => part ++ sep :: joinChar sep rest

theorem splitOnPred_ne_nil (p : Char → Bool) (s : Str) : splitOnPred p s ≠ [] := by
  cases s with
  | nil => simp [splitOnPred]
  | cons c rest =>
    simp only [splitOnPred]
    by_cases h : p c
    · simp [h]
    · simp only [if_neg h]
      rcases hs : splitOnPred p rest with _ | ⟨h₁, t⟩ <;> simp

/-- Splitting a separator-free string yields exactly that string. -/
theorem splitOnPred_of_free {p : Char → Bool} {s : Str}
    (h : s.all (fun c => !p c) = true) : splitOnPred p s = [s] := by
  induction s with
  | nil => rfl
  | cons c rest ih =>
    simp only [List.all_cons, Bool.and_eq_true, Bool.not_eq_true'] at h
    simp [splitOnPred, h.1, ih h.2]

/-- Splitting distributes over a separator between a free chunk and a rest. -/
theorem splitOnPred_append {p : Char → Bool} {a : Str} (c : Char) (b : Str)
    (ha : a.all (fun c => !p c) = true) (hc : p c = true) :
    splitOnPred p (a ++ c :: b) = a :: splitOnPred p b := by
  induction a with
  | nil => simp [splitOnPred, hc]
  | cons x xs ih =>
    simp only [List.all_cons, Bool.and_eq_true, Bool.not_eq_true'] at ha
    simp only [List.cons_append, splitOnPred, ha.1, Bool.false_eq_true, if_false,
      List.append_eq]
    rw [ih ha.2]

/-- `split` is a left inverse of `join` on nonempty lists of separator-free
parts. -/
theorem splitOnPred_joinChar {p : Char → Bool} {sep : Char} (hsep : p sep = true) :
    ∀ (parts : List Str), parts ≠ [] →
    (∀ part ∈ parts, part.all (fun c => !p c) = true) →
    splitOnPred p (joinChar sep parts) = parts
  | [], h, _ => absurd rfl h
  | [part], _, hfree => by
    simp only [joinChar]
    exact splitOnPred_of_free (hfree part (by simp))
  | part :: q :: rest, _, hfree => by
    simp only [joinChar]
    rw [splitOnPred_append sep (joinChar sep (q :: rest)) (hfree part (by simp)) hsep]
    rw [splitOnPred_joinChar hsep (q :: rest) (by simp)
      (fun part h => hfree part (List.mem_cons_of_mem _ h))]

/-- JS whitespace (the ASCII subset relevant here). -/
def isWS (c : Char) : Bool :=
  c = ' ' || c = Char.ofNat 9 || c = Char.ofNat 10 || c = Char.ofNat 13

/-- `String.prototype.trim`. -/
def trimWS (s : Str) : Str :=
  (s.dropWhile isWS).reverse.dropWhile isWS |>.reverse

/-- The value of an all-digits numeral. -/
def digitsToNat (s : Str) : Nat :=
  s.foldl (fun acc c => acc * 10 + (c.toNat - 48)) 0

/-- Strict signed decimal integers, the numeric syntax this model supports
(the repository only ever encodes/decodes integral numbers). -/
def signedDigits (t : Str) : Option Int :=
  match t with
  | [] => none
  | c :: ds =>
    if c = '-' then
      if ds ≠ [] && ds.all Char.isDigit then some (-(digitsToNat ds : Int)) else none
    else if c = '+' then
      if ds ≠ [] && ds.all Char.isDigit then some (digitsToNat ds : Int) else none
    else if (c :: ds).all Char.isDigit then some (digitsToNat (c :: ds) : Int)
    else none

/-- Model of `!isNaN(s)` (string-to-number coercion does not give `NaN`):
after trimming, the empty string coerces to `0`, otherwise we require the
integer syntax.  (Fractional syntax is outside this model; no value the
repository produces uses it.) -/
def jsNotNaN (s : Str) : Bool :=
  trimWS s = [] || (signedDigits (trimWS s)).isSome

/-- Model of `parseFloat(s)` at the call sites, which all guard with
`!isNaN(s)`: the whole (trimmed) string is numeric, so the longest-prefix
behaviour of `parseFloat` coincides with a full parse; a whitespace-only
string gives `NaN`. -/
def parseFloatJS (s : Str) : JSVal :=
  match signedDigits (trimWS s) with
  | some n => .num n
  | none => .nan

/-- Decimal digits of a natural number (fuel-indexed helper). -/
def natToStrGo : Nat → Nat → Str
  | 0, _ => []
  | f + 1, n =>
    if n < 10 then [Char.ofNat (48 + n)]
    else natToStrGo f (n / 10) ++ [Char.ofNat (48 + n % 10)]

/-- Decimal digits of a natural number. -/
def natToStr (n : Nat) : Str := natToStrGo (n + 1) n

/-- JS decimal rendering of an integral number. -/
def intToStr (n : Int) : Str :=
  if n < 0 then '-' :: natToStr n.natAbs else natToStr n.toNat

mutual

/-- JS `String(v)` coercion.  (The `numDec` rendering is schematic; no
verified path stringifies a non-integral number.) -/
def jsToString : JSVal → Str
  | .str s => s
  | .num n => intToStr n
  | .numDec m e => intToStr m ++ 'e' :: intToStr e
  | .nan => S "NaN"
  | .bool true => S "true"
  | .bool false => S "false"
  | .null => S "null"
  | .undef => S "undefined"
  | .arr items => jsToStringItems items
  | .obj _ => S "[object Object]"

/-- `Array.prototype.join(',')` used by `String` on arrays: `null` and
`undefined` elements render as the empty string. -/
def jsToStringItems : List JSVal → Str
  | [] => []
  | [v] =>
    match v with
    | .null => []
    | .undef => []
    | v => jsToString v
  | v :: rest =>
    (match v with
     | .null => []
     | .undef => []
     | v => jsToString v) ++ ',' :: jsToStringItems rest

end

/-! ## SCX codec (`lib/scx/codec.js`, `SCXCodec`) -/

/-- The glyph name `Ch'en`. -/
def chenStr : Str := S "Ch" ++ apoChar :: S "en"

/-- The glyph name `K'ayab'`. -/
def kayabStr : Str := S "K" ++ apoChar :: S "ayab" ++ [apoChar]

/-- The glyph name `Kumk'u`. -/
def kumkuStr : Str := S "Kumk" ++ apoChar :: S "u"

/-- The SCX compression dictionary, entries in source order. -/
def scxDict : List (Str × Str) :=
  [ (S "@shard", S "s"), (S "shard", S "s"), (S "id", S "i"), (S "api", S "a"),
    (S "path", S "p"), (S "method", S "m"), (S "handler", S "h"), (S "view", S "v"),
    (S "@html", S "H"), (S "html", S "H"), (S "@body", S "B"), (S "body", S "B"),
    (S "@node", S "n"), (S "node", S "n"), (S "attrs", S "A"), (S "children", S "c"),
    (S "port", S "P"), (S "runtime", S "r"),
    (S "hive", S "H"), (S "shards", S "S"), (S "mesh", S "M"),
    (S "protocol", S "pr"), (S "ports", S "Ps"),
    (S "Pop", S "Pp"), (S "Wo", S "W"), (chenStr, S "C"), (S "Yax", S "Y"),
    (S "Sek", S "S"), (kayabStr, S "K"), (kumkuStr, S "Km"), (S "Xul", S "X"),
    (S "GET", S "G"), (S "POST", S "Po"), (S "PUT", S "Pu"), (S "DELETE", S "D"),
    (S "virtual-rest", S "vr"), (S "kuhul", S "k") ]

/-- `this.dictionary[k]` (`none` for a missing property). -/
def dictGet (k : Str) : Option Str := jsGet scxDict k

/-- `Object.fromEntries(entries.map(([k,v]) => [v,k]))`: repeated keys keep
the first position and the last value, which JS assignment (`jsAssign`)
models exactly. -/
def scxRevDict : List (Str × Str) :=
  (scxDict.map (fun p => (p.2, p.1))).foldl (fun m p => jsAssign m p.1 p.2) []

/-- `this.reverseDictionary[k]`. -/
def revDictGet (k : Str) : Option Str := jsGet scxRevDict k

mutual

/-- `SCXCodec.compressObject`: substitute known keys and known string
values through the dictionary, recursively. -/
def compressObject : JSVal → JSVal
  | .arr items => .arr (compressList items)
  | .obj kvs => .obj (compressEntries [] kvs)
  | v => v

/-- `compressObject` over array items. -/
def compressList : List JSVal → List JSVal
  | [] => []
  | v :: rest => compressObject v :: compressList rest

/-- The entries loop of `compressObject`, building the fresh object with JS
assignment (so two keys that compress to the same token collide, last one
winning). -/
def compressEntries (acc : List (Str × JSVal)) :
    List (Str × JSVal) → List (Str × JSVal)
  | [] => acc
  | (k, v) :: rest =>
    let ck := (dictGet k).getD k
    let cv := match v with
      | .str s => .str ((dictGet s).getD s)
      | v => compressObject v
    compressEntries (jsAssign acc ck cv) rest

end

mutual

/-- `SCXCodec.decompressObject`: the inverse substitution through the
reverse dictionary. -/
def decompressObject : JSVal → JSVal
  | .arr items => .arr (decompressList items)
  | .obj kvs => .obj (decompressEntries [] kvs)
  | v => v

/-- `decompressObject` over array items. -/
def decompressList : List JSVal → List JSVal
  | [] => []
  | v :: rest => decompressObject v :: decompressList rest

/-- The entries loop of `decompressObject`. -/
def decompressEntries (acc : List (Str × JSVal)) :
    List (Str × JSVal) → List (Str × JSVal)
  | [] => acc
  | (k, v) :: rest =>
    let dk := (revDictGet k).getD k
    let dv := match v with
      | .str s => .str ((revDictGet s).getD s)
      | v => decompressObject v
    decompressEntries (jsAssign acc dk dv) rest

end

/-- The `compressedValue` expression of `compressObject`, as a named
function. -/
def compressValueFn (v : JSVal) : JSVal :=
  match v with
  | .str s => .str ((dictGet s).getD s)
  | v => compressObject v

/-- The `decompressedValue` expression of `decompressObject`, as a named
function. -/
def decompressValueFn (v : JSVal) : JSVal :=
  match v with
  | .str s => .str ((revDictGet s).getD s)
  | v => decompressObject v

mutual

/-- `SCXCodec.flattenObject`: the ordered list of `path, value` tokens
pushed for a subtree under string prefix `px`. -/
def flattenParts : JSVal → Str → List Str
  | .arr items, px => flattenArr items 0 px
  | .obj kvs, px => flattenEntries kvs px
  | v, px => [px, jsToString v]

/-- Array branch of `flattenObject`: item `i` flattens under `px[i]`. -/
def flattenArr : List JSVal → Nat → Str → List Str
  | [], _, _ => []
  | item :: rest, idx, px =>
    flattenParts item (px ++ '[' :: natToStr idx ++ [']']) ++ flattenArr rest (idx + 1) px

/-- Object branch of `flattenObject`: entry `k` flattens under `px.k`
(`k` alone when the prefix is empty). -/
def flattenEntries : List (Str × JSVal) → Str → List Str
  | [], _ => []
  | (k, v) :: rest, px =>
    flattenParts v (if px = [] then k else px ++ '.' :: k) ++ flattenEntries rest px

end

/-- `SCXCodec.objectToSCXString`. -/
def objectToSCXString (v : JSVal) : Str :=
  joinChar sepChar (flattenParts v [])

/-- `SCXCodec.parseValue`: coerce a decoded token to a typed scalar. -/
def parseValue (v : Str) : JSVal :=
  if v = S "true" then .bool true
  else if v = S "false" then .bool false
  else if v = S "null" then .null
  else if jsNotNaN v && !(v.isEmpty) then parseFloatJS v
  else .str v

/-- Is `k` in canonical array-index form (so that assigning `arr[k]` writes
an element rather than an expando property)? -/
def canonicalIndex (k : Str) : Option Nat :=
  if k ≠ [] && k.all Char.isDigit && (k = ['0'] || k.head? ≠ some '0') then
    some (digitsToNat k)
  else none

/-- One JS property write `container[k] = v`.  On objects this is plain
assignment; on arrays a canonical index within or just past the bounds
writes that slot (holes padded with `undefined`), while a non-index key
creates an expando property that no later traversal in this codebase can
observe, so it is modelled as a no-op; writes to primitives are silently
discarded exactly as in non-strict JS. -/
def assignProp (container : JSVal) (k : Str) (v : JSVal) : JSVal :=
  match container with
  | .obj kvs => .obj (jsAssign kvs k v)
  | .arr items =>
    match canonicalIndex k with
    | some n =>
      if n < items.length then .arr (items.set n v)
      else .arr (items ++ List.replicate (n - items.length) .undef ++ [v])
    | none => .arr items
  | c => c

/-- JS `part in container` / `container[part]` read for `setPath`'s walk:
present keys on objects, in-bounds canonical indices on arrays.  (`in`
applied to a primitive would throw in JS; the walk is modelled as leaving
the tree unchanged there, a branch nothing in the repository reaches.) -/
def getPropPart (container : JSVal) (k : Str) : Option JSVal :=
  match container with
  | .obj kvs => jsGet kvs k
  | .arr items =>
    match canonicalIndex k with
    | some n => items.get? n
    | none => none
  | _ => none

/-- The walk of `SCXCodec.setPath` along the split path parts, creating an
intermediate array when the part itself is numeric (`!isNaN(part)`) and an
object otherwise, then writing the final value. -/
def setPathGo : List Str → JSVal → JSVal → JSVal
  | [], _, container => container
  | [last], v, container => assignProp container last v
  | part :: rest, v, container =>
    let child := match getPropPart container part with
      | some c => c
      | none => if jsNotNaN part then .arr [] else .obj []
    assignProp container part (setPathGo rest v child)

/-- `path.split(/\.|\[|\]/).filter(Boolean)`. -/
def splitPath (path : Str) : List Str :=
  (splitOnPred (fun c => c = '.' || c = '[' || c = ']') path).filter (· ≠ [])

/-- `SCXCodec.setPath` with the final value already coerced.  (In the
source the path-parts list is never empty for a nonempty path; an empty
parts list would write under the key `"undefined"`, which the model
reproduces.) -/
def setPathVal (root : JSVal) (path : Str) (v : JSVal) : JSVal :=
  match splitPath path with
  | [] => assignProp root (S "undefined") v
  | parts => setPathGo parts v root

/-- The token-pairs loop of `SCXCodec.scxStringToObject`: tokens are
consumed two at a time, empty paths are skipped, and a trailing odd path
receives `undefined` (reading past the array end). -/
def buildPairs : List Str → JSVal → JSVal
  | [], o => o
  | [p], o => if p = [] then o else setPathVal o p .undef
  | p :: v :: rest, o =>
    if p = [] then buildPairs rest o
    else buildPairs rest (setPathVal o p (parseValue v))

/-- `SCXCodec.scxStringToObject`. -/
def scxStringToObject (s : Str) : JSVal :=
  buildPairs (splitOnPred (fun c => c = sepChar) s) (.obj [])

/-- JS `\w` word characters. -/
def wordChar (c : Char) : Bool := c.isAlpha || c.isDigit || c = '_'

/-- Is there a `\b` boundary between an optional previous character and a
next character?  (`\b` holds when exactly one side is a word character;
the edge of the string counts as non-word.) -/
def wbBetween (prev : Option Char) (next : Option Char) : Bool :=
  (match prev with | some c => wordChar c | none => false) ≠
    (match next with | some c => wordChar c | none => false)

/-- One global pass of `str.replace(new RegExp("\\b" + full + "\\b", "g"),
short)`: scan left to right, replacing non-overlapping occurrences of
`pat` that sit between `\b` boundaries of the original string. -/
def replaceWBGo (pat rep : Str) : Option Char → Str → Str
  | _, [] => []
  | prev, c :: rest =>
    if h : pat ≠ [] && pat.isPrefixOf (c :: rest) &&
        wbBetween prev pat.head? && wbBetween pat.getLast? ((c :: rest).drop pat.length).head? then
      rep ++ replaceWBGo pat rep pat.getLast? ((c :: rest).drop pat.length)
    else
      c :: replaceWBGo pat rep (some c) rest
termination_by _ s => s.length
decreasing_by
  · simp only [Bool.and_eq_true, ne_eq, decide_eq_true_eq] at h
    have hp : pat.length ≥ 1 := by
      cases pat with
      | nil => exact absurd rfl h.1.1.1
      | cons _ _ => simp
    simp only [List.length_drop, List.length_cons]
    omega
  · simp

/-- The dictionary-substitution loop of `SCXCodec.compressString` (without
the sentinel that `compressString` prepends). -/
def dictReplaceAll (s : Str) : Str :=
  scxDict.foldl (fun acc p => replaceWBGo p.1 p.2 none acc) s

/-- `SCXCodec.compressString`: word-boundary dictionary substitution with
the `⟁` sentinel prepended. -/
def compressString (s : Str) : Str :=
  sepChar :: dictReplaceAll s

/-! ## `JSON.parse` (the platform primitive the codec and engine call)

A strict recursive-descent parser for the JSON grammar, fuel-indexed for
termination.  Non-integral numbers are represented exactly as `numDec`. -/

/-- Skip JSON whitespace. -/
def jpSkipWS (s : Str) : Str := s.dropWhile isWS

/-- Parse the body of a JSON string literal (the opening quote already
consumed), returning the decoded text and the remaining input.  `\u`
escapes outside the valid scalar range fall back to `Char.ofNat`'s default,
a corner no repository value reaches. -/
def jpString : Str → Option (Str × Str)
  | [] => none
  | '"' :: rest => some ([], rest)
  | '\\' :: rest =>
    match rest with
    | [] => none
    | 'u' :: h1 :: h2 :: h3 :: h4 :: r =>
      if isHex h1 && isHex h2 && isHex h3 && isHex h4 then
        match jpString r with
        | some (str, r') =>
          some (Char.ofNat (4096 * hexVal h1 + 256 * hexVal h2 +
            16 * hexVal h3 + hexVal h4) :: str, r')
        | none => none
      else none
    | e :: r =>
      match jpEscape e with
      | some c =>
        match jpString r with
        | some (str, r') => some (c :: str, r')
        | none => none
      | none => none
  | c :: rest =>
    match jpString rest with
    | some (str, r') => some (c :: str, r')
    | none => none
where
  /-- Hexadecimal digit test. -/
  isHex (c : Char) : Bool :=
    c.isDigit || ('a' ≤ c && c ≤ 'f') || ('A' ≤ c && c ≤ 'F')
  /-- The value of a hexadecimal digit. -/
  hexVal (c : Char) : Nat :=
    if c.isDigit then c.toNat - 48
    else if 'a' ≤ c && c ≤ 'f' then c.toNat - 87
    else c.toNat - 55
  /-- Single-character JSON escapes. -/
  jpEscape (e : Char) : Option Char :=
    if e = '"' then some '"'
    else if e = '\\' then some '\\'
    else if e = '/' then some '/'
    else if e = 'b' then some (Char.ofNat 8)
    else if e = 'f' then some (Char.ofNat 12)
    else if e = 'n' then some (Char.ofNat 10)
    else if e = 'r' then some (Char.ofNat 13)
    else if e = 't' then some (Char.ofNat 9)
    else none

/-- Pack an exact decimal `m·10^e` into a value: an integer when it is
integral, `numDec` otherwise. -/
def mkNum (m : Int) (e : Int) : JSVal :=
  if 0 ≤ e then .num (m * 10 ^ e.toNat)
  else if ((10 : Int) ^ (-e).toNat) ∣ m then .num (m / 10 ^ (-e).toNat)
  else .numDec m e

/-- Parse the optional exponent suffix of a JSON number and finish it. -/
def jpExp (neg : Bool) (m : Nat) (fracLen : Nat) (r : Str) : Option (JSVal × Str) :=
  let mi : Int := if neg then -(m : Int) else (m : Int)
  match r with
  | c :: r1 =>
    if c = 'e' || c = 'E' then
      let (eneg, r2) := match r1 with
        | '-' :: rr => (true, rr)
        | '+' :: rr => (false, rr)
        | _ => (false, r1)
      let (eds, r3) := r2.span Char.isDigit
      if eds = [] then none
      else some (mkNum mi ((if eneg then -(digitsToNat eds : Int) else (digitsToNat eds : Int)) - fracLen), r3)
    else some (mkNum mi (-(fracLen : Int)), c :: r1)
  | [] => some (mkNum mi (-(fracLen : Int)), [])

/-- Parse a JSON number literal (strict grammar: no leading `+`, no leading
zeros, a digit required after the decimal point). -/
def jpNumber (s : Str) : Option (JSVal × Str) :=
  let (neg, s1) := match s with
    | '-' :: r => (true, r)
    | _ => (false, s)
  let (ds, r1) := s1.span Char.isDigit
  if ds = [] then none
  else if 1 < ds.length && ds.head? = some '0' then none
  else
    match r1 with
    | '.' :: rf =>
      let (fs, r2) := rf.span Char.isDigit
      if fs = [] then none
      else jpExp neg (digitsToNat (ds ++ fs)) fs.length r2
    | _ => jpExp neg (digitsToNat ds) 0 r1

mutual

/-- Parse one JSON value (leading whitespace allowed). -/
def jpValue : Nat → Str → Option (JSVal × Str)
  | 0, _ => none
  | f + 1, s =>
    match jpSkipWS s with
    | '{' :: rest => jpObject f (jpSkipWS rest)
    | '[' :: rest => jpArray f (jpSkipWS rest)
    | '"' :: rest =>
      match jpString rest with
      | some (str, r) => some (.str str, r)
      | none => none
    | 't' :: 'r' :: 'u' :: 'e' :: rest => some (.bool true, rest)
    | 'f' :: 'a' :: 'l' :: 's' :: 'e' :: rest => some (.bool false, rest)
    | 'n' :: 'u' :: 'l' :: 'l' :: rest => some (.null, rest)
    | s1 => jpNumber s1

/-- Parse the inside of a JSON object (after `{` and whitespace). -/
def jpObject : Nat → Str → Option (JSVal × Str)
  | 0, _ => none
  | f + 1, s =>
    match s with
    | '}' :: rest => some (.obj [], rest)
    | _ => jpMembers f s []

/-- Parse `"key": value` members; duplicate keys behave like JS object
assignment (last value wins). -/
def jpMembers : Nat → Str → List (Str × JSVal) → Option (JSVal × Str)
  | 0, _, _ => none
  | f + 1, s, acc =>
    match jpSkipWS s with
    | '"' :: rest =>
      match jpString rest with
      | some (k, r1) =>
        match jpSkipWS r1 with
        | ':' :: r2 =>
          match jpValue f r2 with
          | some (v, r3) =>
            match jpSkipWS r3 with
            | ',' :: r4 => jpMembers f r4 (jsAssign acc k v)
            | '}' :: r4 => some (.obj (jsAssign acc k v), r4)
            | _ => none
          | none => none
        | _ => none
      | none => none
    | _ => none

/-- Parse the inside of a JSON array (after `[` and whitespace). -/
def jpArray : Nat → Str → Option (JSVal × Str)
  | 0, _ => none
  | f + 1, s =>
    match s with
    | ']' :: rest => some (.arr [], rest)
    | _ => jpItems f s []

/-- Parse comma-separated array items. -/
def jpItems : Nat → Str → List JSVal → Option (JSVal × Str)
  | 0, _, _ => none
  | f + 1, s, acc =>
    match jpValue f s with
    | some (v, r) =>
      match jpSkipWS r with
      | ',' :: r2 => jpItems f r2 (acc ++ [v])
      | ']' :: r2 => some (.arr (acc ++ [v]), r2)
      | _ => none
    | none => none

end

/-- `JSON.parse`: a whole-input JSON value or failure.  The fuel bound is
generous; every recursive step consumes at least one input character. -/
def jsonParse (s : Str) : Option JSVal :=
  match jpValue (4 * s.length + 4) s with
  | some (v, rest) => if jpSkipWS rest = [] then some v else none
  | none => none

/-- `SCXCodec.encode`: textual input is first tried as JSON (falling back
to `compressString`); trees are dictionary-compressed and flattened. -/
def encode (data : JSVal) : Str :=
  match data with
  | .str s =>
    match jsonParse s with
    | some t => objectToSCXString (compressObject t)
    | none => compressString s
  | d => objectToSCXString (compressObject d)

/-- `SCXCodec.decode`: input without the sentinel is returned unchanged
(left); otherwise the token string is rebuilt into a tree and
dictionary-decompressed (right). -/
def decode (s : Str) : Str ⊕ JSVal :=
  if s.any (fun c => c = sepChar) then .inr (decompressObject (scxStringToObject s))
  else .inl s

/-! ## Claim C10: the free-text compression path is one-way -/

/-- No `⟁` occurs in the string. -/
def sepFree (s : Str) : Bool := s.all (fun c => c != sepChar)

theorem sepFree_append (a b : Str) : sepFree (a ++ b) = (sepFree a && sepFree b) := by
  simp [sepFree, List.all_append]

theorem sepFree_drop {s : Str} (n : Nat) (h : sepFree s = true) :
    sepFree (s.drop n) = true := by
  simp only [sepFree, List.all_eq_true] at h ⊢
  exact fun c hc => h c (List.mem_of_mem_drop hc)

theorem replaceWBGo_sepFree (pat rep : Str) (hrep : sepFree rep = true) :
    ∀ (n : Nat) (s : Str), s.length ≤ n → ∀ (prev : Option Char),
    sepFree s = true → sepFree (replaceWBGo pat rep prev s) = true := by
  intro n
  induction n with
  | zero =>
    intro s hlen prev hs
    have : s = [] := List.length_eq_zero.mp (Nat.le_zero.mp hlen)
    subst this
    simpa [replaceWBGo] using hs
  | succ n ih =>
    intro s hlen prev hs
    match s with
    | [] => simpa [replaceWBGo] using hs
    | c :: rest =>
      rw [replaceWBGo]
      split
      · next h =>
        simp only [Bool.and_eq_true, ne_eq, decide_eq_true_eq] at h
        have hpat : 1 ≤ pat.length := by
          cases hp : pat with
          | nil => exact absurd hp h.1.1.1
          | cons _ _ => simp
        rw [sepFree_append]
        refine (Bool.and_eq_true _ _).mpr ⟨hrep, ?_⟩
        refine ih _ ?_ _ (sepFree_drop _ hs)
        simp only [List.length_drop, List.length_cons] at *
        omega
      · simp only [sepFree, List.all_cons, Bool.and_eq_true] at hs ⊢
        exact ⟨hs.1, ih rest (by simpa using hlen) (some c) hs.2⟩

theorem foldl_replace_sepFree :
    ∀ (entries : List (Str × Str)) (s : Str),
    (∀ e ∈ entries, sepFree e.2 = true) → sepFree s = true →
    sepFree (entries.foldl (fun acc p => replaceWBGo p.1 p.2 none acc) s) = true
  | [], s, _, hs => hs
  | e :: rest, s, hent, hs => by
    simp only [List.foldl_cons]
    exact foldl_replace_sepFree rest _
      (fun e' h => hent e' (List.mem_cons_of_mem _ h))
      (replaceWBGo_sepFree e.1 e.2 (hent e (by simp)) s.length s (le_refl _) none hs)

theorem dictReplaceAll_sepFree {s : Str} (hs : sepFree s = true) :
    sepFree (dictReplaceAll s) = true :=
  foldl_replace_sepFree scxDict s (by decide) hs

/-- C10: for every string `s` that `JSON.parse` rejects and that contains
no `⟁`, `encode` prepends the sentinel to the word-boundary
dictionary-substituted text, and `decode (encode s)` rebuilds the empty
object `{}` — not `s`: the free-text compression path is not reversible
through `decode`. -/
theorem c10_freetext_one_way (s : Str) (hjson : jsonParse s = none)
    (hsep : sepFree s = true) :
    encode (.str s) = sepChar :: dictReplaceAll s ∧
    decode (encode (.str s)) = Sum.inr (.obj []) := by
  have henc : encode (.str s) = sepChar :: dictReplaceAll s := by
    simp [encode, hjson, compressString]
  refine ⟨henc, ?_⟩
  rw [henc]
  have hfree : sepFree (dictReplaceAll s) = true := dictReplaceAll_sepFree hsep
  have hsplit : splitOnPred (fun c => c = sepChar) (sepChar :: dictReplaceAll s)
      = [[], dictReplaceAll s] := by
    simp only [splitOnPred, decide_True, if_pos]
    rw [splitOnPred_of_free]
    simp only [sepFree, List.all_eq_true] at hfree
    simp only [List.all_eq_true]
    intro c hc
    simpa using hfree c hc
  simp only [decode, List.any_cons]
  rw [if_pos (by simp)]
  simp [scxStringToObject, hsplit, buildPairs, decompressObject, decompressEntries]

/-- Witness for C10 at `s = "hello world"`. -/
theorem c10_freetext_one_way_witness :
    jsonParse (S "hello world") = none ∧ sepFree (S "hello world") = true ∧
    (encode (.str (S "hello world")) = sepChar :: dictReplaceAll (S "hello world") ∧
     decode (encode (.str (S "hello world"))) = Sum.inr (.obj [])) :=
  ⟨rfl, by decide, c10_freetext_one_way _ rfl (by decide)⟩

/-! ## Claim C1: `decode ∘ encode` round-trip -/

/-- The tree `{q: "5"}`: its key and string value collide with no
dictionary token, yet the round-trip turns the string `"5"` into the
number `5`. -/
def c1tree : JSVal := .obj [(['q'], .str ['5'])]

/-- C1 counterexample: `decode (encode {q:"5"})` is `{q: 5}`, not
`{q: "5"}` — `parseValue` coerces numeric-looking string values, so the
round-trip fails even though neither `q` nor `"5"` is a dictionary token. -/
theorem c1_counterexample : decode (encode c1tree) ≠ Sum.inr c1tree := by
  rw [show decode (encode c1tree) = Sum.inr (JSVal.obj [(['q'], JSVal.num 5)]) from rfl]
  intro h
  simp [c1tree] at h

/-! ### The amended round-trip domain

The counterexamples force excluding from the round-trip claim exactly the
inputs that the flatten/split/`parseValue` pipeline cannot represent:
string values that coerce (numeric-looking, `"true"`, `"false"`, `"null"`),
tokens containing the separator or the path punctuation `.[]`, numeric
object keys (which would make `setPath` create an array), empty containers
(which flatten to nothing), arrays (whose index paths rebuild as objects),
and — per the claim's own proviso — keys or string values that collide with
a dictionary token in either direction. -/

/-- A conservative test for strings JS number coercion might accept: after
trimming, the empty string, anything starting with a digit, sign or dot,
and `Infinity`. -/
def numLookingJS (s : Str) : Bool :=
  match trimWS s with
  | [] => true
  | c :: rest => c.isDigit || c = '-' || c = '+' || c = '.' || (c :: rest) = S "Infinity"

/-- An object key that survives the round-trip: nonempty, free of `⟁` and
of the path punctuation, not numeric-looking, and no dictionary token. -/
def goodKey (k : Str) : Bool :=
  !k.isEmpty &&
  k.all (fun c => c != '.' && c != '[' && c != ']' && c != sepChar) &&
  !numLookingJS k &&
  (dictGet k).isNone && (revDictGet k).isNone

/-- A string value that survives the round-trip: free of `⟁`, not one of
the coercible literals, not numeric-looking (unless empty), and no
dictionary token. -/
def goodStrVal (s : Str) : Bool :=
  sepFree s &&
  s != S "true" && s != S "false" && s != S "null" &&
  (s.isEmpty || !numLookingJS s) &&
  (dictGet s).isNone && (revDictGet s).isNone

mutual

/-- A value at some position of a round-trippable tree: a representable
scalar or a nested good object. -/
def goodVal : JSVal → Bool
  | .str s => goodStrVal s
  | .num _ => true
  | .bool _ => true
  | .null => true
  | .obj kvs => !kvs.isEmpty && goodEntries kvs
  | _ => false

/-- Entries of a good object: good pairwise-distinct keys and good values. -/
def goodEntries : List (Str × JSVal) → Bool
  | [] => true
  | (k, v) :: rest =>
    goodKey k && !strMem k (mapKeys rest) && goodVal v && goodEntries rest

end

/-- A round-trippable tree: a nonempty object of good entries. -/
def goodTree (t : JSVal) : Bool :=
  match t with
  | .obj _ => goodVal t
  | _ => false

/-! ### Decimal rendering round-trips -/

theorem natToStrGo_spec : ∀ (f n : Nat), n < f →
    natToStrGo f n ≠ [] ∧ (natToStrGo f n).all Char.isDigit = true ∧
      digitsToNat (natToStrGo f n) = n := by
  intro f
  induction f with
  | zero => intro n h; omega
  | succ f ih =>
    intro n h
    by_cases h10 : n < 10
    · refine ⟨by simp [natToStrGo, h10], ?_, ?_⟩
      · simp only [natToStrGo, if_pos h10, List.all_cons, List.all_nil, Bool.and_true]
        interval_cases n <;> decide
      · simp only [natToStrGo, if_pos h10, digitsToNat, List.foldl]
        have : (Char.ofNat (48 + n)).toNat = 48 + n := by interval_cases n <;> decide
        omega
    · have hdiv : n / 10 < f := by
        have h1 : n / 10 < n := Nat.div_lt_self (by omega) (by omega)
        omega
      obtain ⟨hne, hdig, hval⟩ := ih (n / 10) hdiv
      have hmod : n % 10 < 10 := Nat.mod_lt _ (by omega)
      have hchar : (Char.ofNat (48 + n % 10)).toNat = 48 + n % 10 ∧
          (Char.ofNat (48 + n % 10)).isDigit = true := by
        set m := n % 10 with hm
        interval_cases m <;> exact ⟨by decide, by decide⟩
      refine ⟨by simp [natToStrGo, h10], ?_, ?_⟩
      · simp only [natToStrGo, if_neg h10, List.all_append, List.all_cons, List.all_nil,
          Bool.and_true, Bool.and_eq_true]
        exact ⟨hdig, hchar.2⟩
      · simp only [natToStrGo, if_neg h10, digitsToNat, List.foldl_append, List.foldl]
        simp only [digitsToNat] at hval
        rw [hval, hchar.1]
        omega

theorem natToStr_spec (n : Nat) :
    natToStr n ≠ [] ∧ (natToStr n).all Char.isDigit = true ∧
      digitsToNat (natToStr n) = n :=
  natToStrGo_spec (n + 1) n (by omega)

theorem isWS_eq_false_of_isDigit {c : Char} (hd : c.isDigit = true) :
    isWS c = false := by
  by_contra hws
  rw [Bool.not_eq_false] at hws
  simp only [isWS, Bool.or_eq_true, decide_eq_true_eq] at hws
  rcases hws with ((h | h) | h) | h <;> (subst h; exact absurd hd (by decide))

theorem all_not_isWS_of_isDigit {s : Str} (h : s.all Char.isDigit = true) :
    s.all (fun c => !isWS c) = true := by
  simp only [List.all_eq_true] at h ⊢
  intro c hc
  simp [isWS_eq_false_of_isDigit (h c hc)]

theorem dropWhile_of_all_not {p : Char → Bool} {s : Str}
    (h : s.all (fun c => !p c) = true) : s.dropWhile p = s := by
  cases s with
  | nil => rfl
  | cons c rest =>
    simp only [List.all_cons, Bool.and_eq_true, Bool.not_eq_true'] at h
    simp [List.dropWhile, h.1]

theorem trimWS_of_all_not {s : Str} (h : s.all (fun c => !isWS c) = true) :
    trimWS s = s := by
  simp only [trimWS]
  rw [dropWhile_of_all_not h, dropWhile_of_all_not (by simpa using h), List.reverse_reverse]

theorem head_isDigit_signedDigits {c : Char} {ds : Str}
    (hall : (c :: ds).all Char.isDigit = true) :
    signedDigits (c :: ds) = some ((digitsToNat (c :: ds) : Int)) := by
  have hc : c.isDigit = true := by
    simp only [List.all_cons, Bool.and_eq_true] at hall
    exact hall.1
  have hnm : c ≠ '-' := by intro he; subst he; revert hc; decide
  have hnp : c ≠ '+' := by intro he; subst he; revert hc; decide
  simp [signedDigits, hnm, hnp, hall]

theorem signedDigits_intToStr (n : Int) : signedDigits (intToStr n) = some n := by
  by_cases hneg : n < 0
  · obtain ⟨hne, hdig, hval⟩ := natToStr_spec n.natAbs
    rw [show intToStr n = '-' :: natToStr n.natAbs from by simp [intToStr, if_pos hneg]]
    simp only [signedDigits, if_pos rfl]
    have hcond : (decide (natToStr n.natAbs ≠ []) && List.all (natToStr n.natAbs) Char.isDigit) = true := by
      simp [hne, hdig]
    rw [if_pos hcond, hval, Int.ofNat_natAbs_of_nonpos (by omega), neg_neg]
    simp
  · obtain ⟨hne, hdig, hval⟩ := natToStr_spec n.toNat
    simp only [intToStr, if_neg hneg]
    cases hs : natToStr n.toNat with
    | nil => exact absurd hs hne
    | cons c rest =>
      rw [hs] at hdig hval
      rw [head_isDigit_signedDigits hdig, hval]
      rw [Int.toNat_of_nonneg (by omega)]

theorem trimWS_intToStr (n : Int) : trimWS (intToStr n) = intToStr n := by
  apply trimWS_of_all_not
  by_cases hneg : n < 0
  · obtain ⟨_, hdig, _⟩ := natToStr_spec n.natAbs
    simp only [intToStr, if_pos hneg, List.all_cons, Bool.and_eq_true]
    exact ⟨by decide, all_not_isWS_of_isDigit hdig⟩
  · obtain ⟨_, hdig, _⟩ := natToStr_spec n.toNat
    simp only [intToStr, if_neg hneg]
    exact all_not_isWS_of_isDigit hdig

/-- `parseValue` inverts `String(·)` on every representable scalar of a
good tree. -/
theorem intToStr_ne_nil (n : Int) : intToStr n ≠ [] := by
  by_cases hneg : n < 0
  · simp [intToStr, if_pos hneg]
  · simpa [intToStr, if_neg hneg] using (natToStr_spec n.toNat).1

theorem intToStr_head (n : Int) :
    ∃ c rest, intToStr n = c :: rest ∧ (c.isDigit = true ∨ c = '-') := by
  by_cases hneg : n < 0
  · exact ⟨'-', natToStr n.natAbs, by simp [intToStr, if_pos hneg], Or.inr rfl⟩
  · obtain ⟨hne', hdig, _⟩ := natToStr_spec n.toNat
    cases hs : natToStr n.toNat with
    | nil => exact absurd hs hne'
    | cons c rest =>
      rw [hs] at hdig
      simp only [List.all_cons, Bool.and_eq_true] at hdig
      exact ⟨c, rest, by simp [intToStr, if_neg hneg, hs], Or.inl hdig.1⟩

theorem parseValue_intToStr (n : Int) : parseValue (intToStr n) = .num n := by
  have hsd := signedDigits_intToStr n
  have htr := trimWS_intToStr n
  have hne : intToStr n ≠ [] := intToStr_ne_nil n
  obtain ⟨c, rest, hcr, hc⟩ := intToStr_head n
  have hct : c ≠ 't' ∧ c ≠ 'f' ∧ c ≠ 'n' := by
    rcases hc with hc | hc
    · refine ⟨?_, ?_, ?_⟩ <;> (intro he; subst he; revert hc; decide)
    · subst hc; exact ⟨by decide, by decide, by decide⟩
  simp only [parseValue]
  rw [if_neg (by rw [hcr]; intro he; exact hct.1 ((List.cons.injEq _ _ _ _).mp he).1)]
  rw [if_neg (by rw [hcr]; intro he; exact hct.2.1 ((List.cons.injEq _ _ _ _).mp he).1)]
  rw [if_neg (by rw [hcr]; intro he; exact hct.2.2 ((List.cons.injEq _ _ _ _).mp he).1)]
  rw [if_pos (by simp [jsNotNaN, htr, hsd, List.isEmpty_iff, hne])]
  simp [parseFloatJS, htr, hsd]

theorem not_numLooking_head {s : Str} {c : Char} {cr : Str}
    (h : numLookingJS s = false) (htr : trimWS s = c :: cr) :
    c.isDigit = false ∧ c ≠ '-' ∧ c ≠ '+' := by
  unfold numLookingJS at h
  rw [htr] at h
  simp only [Bool.or_eq_false_iff, decide_eq_false_iff_not] at h
  exact ⟨h.1.1.1.1, h.1.1.1.2, h.1.1.2⟩

theorem parseValue_goodStrVal {s : Str} (h : goodStrVal s = true) :
    parseValue s = .str s := by
  simp only [goodStrVal, Bool.and_eq_true, bne_iff_ne, ne_eq,
    Bool.or_eq_true, List.isEmpty_eq_true, Bool.not_eq_true'] at h
  obtain ⟨⟨⟨⟨⟨⟨hsep, ht⟩, hf⟩, hn⟩, hnum⟩, hdict⟩, hrev⟩ := h
  simp only [parseValue]
  rw [if_neg ht, if_neg hf, if_neg hn]
  rcases hnum with hnum | hnum
  · subst hnum
    simp
  · have hguard : ¬(jsNotNaN s && !List.isEmpty s) = true := by
      simp only [Bool.and_eq_true, Bool.not_eq_true', List.isEmpty_eq_true]
      intro hcon
      have hnn := hcon.1
      simp only [jsNotNaN, Bool.or_eq_true, decide_eq_true_eq, Option.isSome_iff_exists] at hnn
      rcases hnn with h0 | ⟨m, hm⟩
      · unfold numLookingJS at hnum
        rw [h0] at hnum
        cases hnum
      · cases htr : trimWS s with
        | nil => unfold numLookingJS at hnum; rw [htr] at hnum; cases hnum
        | cons c cr =>
          obtain ⟨hcd, hcm, hcp⟩ := not_numLooking_head hnum htr
          rw [htr] at hm
          rw [signedDigits, if_neg hcm, if_neg hcp] at hm
          by_cases hall : (c :: cr).all Char.isDigit = true
          · have : c.isDigit = true := by
              simp only [List.all_cons, Bool.and_eq_true] at hall
              exact hall.1
            rw [this] at hcd
            cases hcd
          · rw [if_neg hall] at hm
            cases hm
    rw [if_neg hguard]

/-- `parseValue` inverts `String(·)` on every representable scalar of a
good tree. -/
theorem parseValue_jsToString_good (v : JSVal)
    (hgood : goodVal v = true) (hscalar : ∀ kvs, v ≠ JSVal.obj kvs) :
    parseValue (jsToString v) = v := by
  cases v with
  | num n => exact parseValue_intToStr n
  | bool b => cases b <;> rfl
  | null => rfl
  | str s =>
    have h : goodStrVal s = true := by simpa [goodVal] using hgood
    exact parseValue_goodStrVal h
  | obj kvs => exact absurd rfl (hscalar kvs)
  | numDec m e => simp [goodVal] at hgood
  | nan => simp [goodVal] at hgood
  | undef => simp [goodVal] at hgood
  | arr items => simp [goodVal] at hgood

/-! ### The dictionary substitutions fix good trees -/

theorem goodKey_unpack {k : Str} (h : goodKey k = true) :
    k ≠ [] ∧ k.all (fun c => c != '.' && c != '[' && c != ']' && c != sepChar) = true ∧
      numLookingJS k = false ∧ dictGet k = none ∧ revDictGet k = none := by
  simp only [goodKey, Bool.and_eq_true, Bool.not_eq_true',
    Option.isNone_iff_eq_none] at h
  refine ⟨?_, h.1.1.1.2, h.1.1.2, h.1.2, h.2⟩
  intro he
  rw [he] at h
  simp at h

theorem goodStrVal_unpack {s : Str} (h : goodStrVal s = true) :
    sepFree s = true ∧ dictGet s = none ∧ revDictGet s = none := by
  simp only [goodStrVal, Bool.and_eq_true, Option.isNone_iff_eq_none] at h
  exact ⟨h.1.1.1.1.1.1, h.1.2, h.2⟩

theorem goodEntries_mem {kvs : List (Str × JSVal)} {kv : Str × JSVal}
    (h : goodEntries kvs = true) (hkv : kv ∈ kvs) :
    goodKey kv.1 = true ∧ goodVal kv.2 = true := by
  induction kvs with
  | nil => cases hkv
  | cons p rest ih =>
    obtain ⟨k, v⟩ := p
    simp only [goodEntries, Bool.and_eq_true] at h
    rcases List.mem_cons.mp hkv with h1 | h1
    · subst h1
      exact ⟨h.1.1.1, h.1.2⟩
    · exact ih h.2 h1

theorem numLooking_of_jsNotNaN {s : Str} (h : jsNotNaN s = true) :
    numLookingJS s = true := by
  unfold jsNotNaN at h
  unfold numLookingJS
  cases htr : trimWS s with
  | nil => rfl
  | cons c cr =>
    rw [htr] at h
    simp only [Bool.or_eq_true, decide_eq_true_eq, Option.isSome_iff_exists] at h
    rcases h with h0 | ⟨m, hm⟩
    · cases h0
    · rw [signedDigits] at hm
      by_cases hcm : c = '-'
      · simp [hcm]
      · by_cases hcp : c = '+'
        · simp [hcp]
        · rw [if_neg hcm, if_neg hcp] at hm
          by_cases hall : (c :: cr).all Char.isDigit = true
          · have : c.isDigit = true := by
              simp only [List.all_cons, Bool.and_eq_true] at hall
              exact hall.1
            simp [this]
          · rw [if_neg hall] at hm
            cases hm

theorem jsNotNaN_eq_false_of_goodKey {k : Str} (h : goodKey k = true) :
    jsNotNaN k = false := by
  obtain ⟨_, _, hnum, _, _⟩ := goodKey_unpack h
  by_contra hc
  rw [Bool.not_eq_false] at hc
  rw [numLooking_of_jsNotNaN hc] at hnum
  cases hnum

theorem compressValue_eq {v : JSVal} (hv : goodVal v = true)
    (hfixv : compressObject v = v) : compressValueFn v = v := by
  unfold compressValueFn
  cases v with
  | str s =>
    have : dictGet s = none := by
      simp only [goodVal] at hv
      exact (goodStrVal_unpack hv).2.1
    simp [this]
  | num n => exact hfixv
  | numDec m e => exact hfixv
  | nan => exact hfixv
  | bool b => exact hfixv
  | null => exact hfixv
  | undef => exact hfixv
  | arr items => exact hfixv
  | obj kvs2 => exact hfixv

theorem decompressValue_eq {v : JSVal} (hv : goodVal v = true)
    (hfixv : decompressObject v = v) : decompressValueFn v = v := by
  unfold decompressValueFn
  cases v with
  | str s =>
    have : revDictGet s = none := by
      simp only [goodVal] at hv
      exact (goodStrVal_unpack hv).2.2
    simp [this]
  | num n => exact hfixv
  | numDec m e => exact hfixv
  | nan => exact hfixv
  | bool b => exact hfixv
  | null => exact hfixv
  | undef => exact hfixv
  | arr items => exact hfixv
  | obj kvs2 => exact hfixv

theorem compressEntries_cons (acc : List (Str × JSVal)) (k : Str) (v : JSVal)
    (rest : List (Str × JSVal)) :
    compressEntries acc ((k, v) :: rest)
      = compressEntries (jsAssign acc ((dictGet k).getD k) (compressValueFn v)) rest := by
  cases v <;> rfl

theorem decompressEntries_cons (acc : List (Str × JSVal)) (k : Str) (v : JSVal)
    (rest : List (Str × JSVal)) :
    decompressEntries acc ((k, v) :: rest)
      = decompressEntries (jsAssign acc ((revDictGet k).getD k) (decompressValueFn v)) rest := by
  cases v <;> rfl

theorem compressEntries_eq_append : ∀ (kvs acc : List (Str × JSVal)),
    goodEntries kvs = true →
    (∀ kv ∈ kvs, compressObject kv.2 = kv.2) →
    (∀ kv ∈ kvs, strMem kv.1 (mapKeys acc) = false) →
    compressEntries acc kvs = acc ++ kvs
  | [], acc, _, _, _ => by simp [compressEntries]
  | (k, v) :: rest, acc, hg, hfix, hdisj => by
    simp only [goodEntries, Bool.and_eq_true, Bool.not_eq_true'] at hg
    obtain ⟨⟨⟨hk, hmem⟩, hv⟩, hrest⟩ := hg
    have hdk : dictGet k = none := (goodKey_unpack hk).2.2.2.1
    have hcv := compressValue_eq hv (hfix (k, v) (by simp))
    rw [compressEntries_cons, hdk, Option.getD_none, hcv]
    rw [jsAssign_of_not_mem v (hdisj (k, v) (by simp))]
    rw [compressEntries_eq_append rest (acc ++ [(k, v)]) hrest
      (fun kv hkv => hfix kv (List.mem_cons_of_mem _ hkv))
      (fun kv hkv => by
        have h1 : strMem kv.1 (mapKeys acc) = false :=
          hdisj kv (List.mem_cons_of_mem _ hkv)
        have h2 : kv.1 ≠ k := by
          intro he
          have : strMem k (mapKeys rest) = true := by
            rw [strMem_true_iff]
            exact he ▸ List.mem_map_of_mem Prod.fst hkv
          rw [this] at hmem
          cases hmem
        have hmk : mapKeys (acc ++ [(k, v)]) = mapKeys acc ++ [k] := by
          simp [mapKeys]
        rw [hmk, strMem_append, h1]
        simp [strMem, Ne.symm h2])]
    simp

theorem decompressEntries_eq_append : ∀ (kvs acc : List (Str × JSVal)),
    goodEntries kvs = true →
    (∀ kv ∈ kvs, decompressObject kv.2 = kv.2) →
    (∀ kv ∈ kvs, strMem kv.1 (mapKeys acc) = false) →
    decompressEntries acc kvs = acc ++ kvs
  | [], acc, _, _, _ => by simp [decompressEntries]
  | (k, v) :: rest, acc, hg, hfix, hdisj => by
    simp only [goodEntries, Bool.and_eq_true, Bool.not_eq_true'] at hg
    obtain ⟨⟨⟨hk, hmem⟩, hv⟩, hrest⟩ := hg
    have hdk : revDictGet k = none := (goodKey_unpack hk).2.2.2.2
    have hcv := decompressValue_eq hv (hfix (k, v) (by simp))
    rw [decompressEntries_cons, hdk, Option.getD_none, hcv]
    rw [jsAssign_of_not_mem v (hdisj (k, v) (by simp))]
    rw [decompressEntries_eq_append rest (acc ++ [(k, v)]) hrest
      (fun kv hkv => hfix kv (List.mem_cons_of_mem _ hkv))
      (fun kv hkv => by
        have h1 : strMem kv.1 (mapKeys acc) = false :=
          hdisj kv (List.mem_cons_of_mem _ hkv)
        have h2 : kv.1 ≠ k := by
          intro he
          have : strMem k (mapKeys rest) = true := by
            rw [strMem_true_iff]
            exact he ▸ List.mem_map_of_mem Prod.fst hkv
          rw [this] at hmem
          cases hmem
        have hmk : mapKeys (acc ++ [(k, v)]) = mapKeys acc ++ [k] := by
          simp [mapKeys]
        rw [hmk, strMem_append, h1]
        simp [strMem, Ne.symm h2])]
    simp

theorem compressObject_good : ∀ v, goodVal v = true → compressObject v = v := by
  intro v
  induction v using JSVal.inductionOn with
  | hstr s => intro _; rfl
  | hnum n => intro _; rfl
  | hnumDec m e => intro _; rfl
  | hnan => intro _; rfl
  | hbool b => intro _; rfl
  | hnull => intro _; rfl
  | hundef => intro _; rfl
  | harr l ih => intro hp; simp [goodVal] at hp
  | hobj kvs ih =>
    intro hp
    simp only [goodVal, Bool.and_eq_true] at hp
    simp only [compressObject]
    rw [compressEntries_eq_append kvs [] hp.2
      (fun kv hkv => ih kv hkv (goodEntries_mem hp.2 hkv).2)
      (fun kv _ => rfl)]
    simp

theorem decompressObject_good : ∀ v, goodVal v = true → decompressObject v = v := by
  intro v
  induction v using JSVal.inductionOn with
  | hstr s => intro _; rfl
  | hnum n => intro _; rfl
  | hnumDec m e => intro _; rfl
  | hnan => intro _; rfl
  | hbool b => intro _; rfl
  | hnull => intro _; rfl
  | hundef => intro _; rfl
  | harr l ih => intro hp; simp [goodVal] at hp
  | hobj kvs ih =>
    intro hp
    simp only [goodVal, Bool.and_eq_true] at hp
    simp only [decompressObject]
    rw [decompressEntries_eq_append kvs [] hp.2
      (fun kv hkv => ih kv hkv (goodEntries_mem hp.2 hkv).2)
      (fun kv _ => rfl)]
    simp

/-! ### Flattening a good tree, viewed as path/value pairs -/

mutual

/-- The `path, value` pairs a subtree flattens to (specification view of
`flattenParts`; arrays never occur in good trees). -/
def pairsOf : JSVal → Str → List (Str × Str)
  | .obj kvs, px => pairsOfEntries kvs px
  | .arr _, _ => []
  | v, px => [(px, jsToString v)]

/-- `pairsOf` over object entries. -/
def pairsOfEntries : List (Str × JSVal) → Str → List (Str × Str)
  | [], _ => []
  | (k, v) :: rest, px =>
    pairsOf v (if px = [] then k else px ++ '.' :: k) ++ pairsOfEntries rest px

end

/-- Interleave a pair list back into the token stream. -/
def pairTokens : List (Str × Str) → List Str
  | [] => []
  | (p, v) :: rest => p :: v :: pairTokens rest

mutual

/-- The leaves of a tree as (key path, scalar) pairs. -/
def kleaves : JSVal → List (List Str × JSVal)
  | .obj kvs => kleavesEntries kvs
  | .arr _ => []
  | v => [([], v)]

/-- `kleaves` over object entries. -/
def kleavesEntries : List (Str × JSVal) → List (List Str × JSVal)
  | [] => []
  | (k, v) :: rest =>
    (kleaves v).map (fun p => (k :: p.1, p.2)) ++ kleavesEntries rest

end

theorem pairTokens_append (a b : List (Str × Str)) :
    pairTokens (a ++ b) = pairTokens a ++ pairTokens b := by
  induction a with
  | nil => rfl
  | cons p rest ih =>
    obtain ⟨x, y⟩ := p
    simp [pairTokens, ih]

theorem flattenEntries_eq : ∀ (kvs : List (Str × JSVal)) (px : Str),
    (∀ kv ∈ kvs, ∀ px', flattenParts kv.2 px' = pairTokens (pairsOf kv.2 px')) →
    flattenEntries kvs px = pairTokens (pairsOfEntries kvs px)
  | [], _, _ => rfl
  | (k, v) :: rest, px, hfix => by
    simp only [flattenEntries, pairsOfEntries, pairTokens_append]
    rw [hfix (k, v) (by simp) _,
      flattenEntries_eq rest px (fun kv h px' => hfix kv (List.mem_cons_of_mem _ h) px')]

theorem flattenParts_eq_pairTokens : ∀ (v : JSVal), goodVal v = true →
    ∀ px, flattenParts v px = pairTokens (pairsOf v px) := by
  intro v
  induction v using JSVal.inductionOn with
  | hstr s => intro _ px; rfl
  | hnum n => intro _ px; rfl
  | hnumDec m e => intro h px; simp [goodVal] at h
  | hnan => intro h px; simp [goodVal] at h
  | hbool b => intro _ px; rfl
  | hnull => intro _ px; rfl
  | hundef => intro h px; simp [goodVal] at h
  | harr l ih => intro h px; simp [goodVal] at h
  | hobj kvs ih =>
    intro h px
    simp only [goodVal, Bool.and_eq_true] at h
    simp only [flattenParts, pairsOf]
    exact flattenEntries_eq kvs px
      (fun kv hkv px' => ih kv hkv (goodEntries_mem h.2 hkv).2 px')

/-- Join key segments with `.` (the prefix `flattenEntries` builds). -/
def keyJoin (ks : List Str) : Str := joinChar '.' ks

theorem keyJoin_snoc : ∀ (ks : List Str) (k : Str),
    keyJoin (ks ++ [k]) = if ks = [] then k else keyJoin ks ++ '.' :: k
  | [], k => rfl
  | [a], k => rfl
  | a :: b :: rest, k => by
    have ih := keyJoin_snoc (b :: rest) k
    rw [if_neg (by simp)] at ih
    simp only [keyJoin, joinChar, List.cons_append] at ih ⊢
    rw [if_neg (by simp)]
    simp only [List.append_assoc, List.cons_append, List.append_eq]
    rw [ih]

theorem keyJoin_eq_nil {ks : List Str} (h : ∀ x ∈ ks, x ≠ []) :
    keyJoin ks = [] ↔ ks = [] := by
  cases ks with
  | nil => simp [keyJoin, joinChar]
  | cons a rest =>
    simp only [List.cons_ne_nil, iff_false]
    cases rest with
    | nil => simpa [keyJoin, joinChar] using h a (by simp)
    | cons b r2 =>
      simp only [keyJoin, joinChar]
      intro hcon
      exact h a (by simp) (by simpa using (List.append_eq_nil.mp hcon).1)

theorem pairsOfEntries_eq : ∀ (kvs : List (Str × JSVal)) (ctx : List Str),
    goodEntries kvs = true → (∀ x ∈ ctx, x ≠ []) →
    (∀ kv ∈ kvs, ∀ ctx' : List Str, (∀ x ∈ ctx', x ≠ []) →
      pairsOf kv.2 (keyJoin ctx') =
        (kleaves kv.2).map (fun q => (keyJoin (ctx' ++ q.1), jsToString q.2))) →
    pairsOfEntries kvs (keyJoin ctx) =
      (kleavesEntries kvs).map (fun q => (keyJoin (ctx ++ q.1), jsToString q.2))
  | [], _, _, _, _ => rfl
  | (k, v) :: rest, ctx, hg, hctx, hfix => by
    simp only [goodEntries, Bool.and_eq_true] at hg
    have hknil : k ≠ [] := (goodKey_unpack hg.1.1.1).1
    have hctx' : ∀ x ∈ ctx ++ [k], x ≠ [] := by
      intro x hx
      rcases List.mem_append.mp hx with h1 | h1
      · exact hctx x h1
      · simpa [List.mem_singleton.mp h1] using hknil
    have hpx : (if keyJoin ctx = [] then k else keyJoin ctx ++ '.' :: k)
        = keyJoin (ctx ++ [k]) := by
      rw [keyJoin_snoc]
      by_cases hc : ctx = []
      · subst hc
        simp [keyJoin, joinChar]
      · rw [if_neg hc, if_neg ((not_iff_not.mpr (keyJoin_eq_nil hctx)).mpr hc)]
    simp only [pairsOfEntries, kleavesEntries, List.map_append]
    rw [hpx, hfix (k, v) (by simp) (ctx ++ [k]) hctx',
      pairsOfEntries_eq rest ctx hg.2 hctx
        (fun kv h => hfix kv (List.mem_cons_of_mem _ h))]
    simp [List.map_map, Function.comp, List.append_assoc]

theorem pairsOf_eq_kleaves : ∀ (v : JSVal), goodVal v = true →
    ∀ (ctx : List Str), (∀ x ∈ ctx, x ≠ []) →
    pairsOf v (keyJoin ctx) =
      (kleaves v).map (fun q => (keyJoin (ctx ++ q.1), jsToString q.2)) := by
  intro v
  induction v using JSVal.inductionOn with
  | hstr s => intro _ ctx _; simp [pairsOf, kleaves]
  | hnum n => intro _ ctx _; simp [pairsOf, kleaves]
  | hnumDec m e => intro h ctx _; simp [goodVal] at h
  | hnan => intro h ctx _; simp [goodVal] at h
  | hbool b => intro _ ctx _; simp [pairsOf, kleaves]
  | hnull => intro _ ctx _; simp [pairsOf, kleaves]
  | hundef => intro h ctx _; simp [goodVal] at h
  | harr l ih => intro h ctx _; simp [goodVal] at h
  | hobj kvs ih =>
    intro h ctx hctx
    simp only [goodVal, Bool.and_eq_true] at h
    simp only [pairsOf, kleaves]
    exact pairsOfEntries_eq kvs ctx h.2 hctx
      (fun kv hkv ctx' hctx' => ih kv hkv (goodEntries_mem h.2 hkv).2 ctx' hctx')

/-! ### Rebuilding along `setPath` -/

/-- Apply `setPath` for a list of (key path, already-coerced value) pairs,
left to right. -/
def rebuild (o : JSVal) : List (List Str × JSVal) → JSVal
  | [] => o
  | (ks, v) :: rest => rebuild (setPathGo ks v o) rest

theorem rebuild_append (a b : List (List Str × JSVal)) : ∀ (o : JSVal),
    rebuild o (a ++ b) = rebuild (rebuild o a) b := by
  induction a with
  | nil => intro o; rfl
  | cons q rest ih =>
    intro o
    obtain ⟨ks, v⟩ := q
    simp only [List.cons_append, rebuild]
    exact ih _

theorem jsAssign_self {α : Type} {o : List (Str × α)} {k : Str} {c : α}
    (h : jsGet o k = some c) : jsAssign o k c = o := by
  induction o with
  | nil => cases h
  | cons p rest ih =>
    obtain ⟨k', v'⟩ := p
    by_cases hk : k' = k
    · subst hk
      simp only [jsGet, if_pos rfl, if_true, Option.some.injEq] at h
      simp [jsAssign, h]
    · simp only [jsGet, if_neg hk] at h
      simp [jsAssign, hk, ih h]

theorem jsAssign_jsAssign {α : Type} (o : List (Str × α)) (k : Str) (x y : α) :
    jsAssign (jsAssign o k x) k y = jsAssign o k y := by
  induction o with
  | nil => simp [jsAssign]
  | cons p rest ih =>
    obtain ⟨k', v'⟩ := p
    by_cases hk : k' = k
    · simp [jsAssign, hk]
    · simp [jsAssign, hk, ih]

theorem jsGet_eq_none_of_not_strMem {α : Type} {o : List (Str × α)} {k : Str}
    (h : strMem k (mapKeys o) = false) : jsGet o k = none := by
  induction o with
  | nil => rfl
  | cons p rest ih =>
    obtain ⟨k', v'⟩ := p
    simp only [mapKeys, List.map_cons, strMem, Bool.or_eq_false_iff,
      decide_eq_false_iff_not] at h
    simp only [jsGet, if_neg h.1]
    exact ih (by simpa [mapKeys] using h.2)

theorem setPathGo_single (o : List (Str × JSVal)) (k : Str) (v : JSVal) :
    setPathGo [k] v (.obj o) = .obj (jsAssign o k v) := rfl

theorem setPathGo_cons_existing {o : List (Str × JSVal)} {k : Str} {c : JSVal}
    {ks : List Str} (hks : ks ≠ []) (v : JSVal) (h : jsGet o k = some c) :
    setPathGo (k :: ks) v (.obj o) = .obj (jsAssign o k (setPathGo ks v c)) := by
  cases ks with
  | nil => exact absurd rfl hks
  | cons k2 kr =>
    simp [setPathGo, getPropPart, h, assignProp]

theorem setPathGo_cons_fresh {o : List (Str × JSVal)} {k : Str} {ks : List Str}
    (hks : ks ≠ []) (v : JSVal) (h : jsGet o k = none) (hnn : jsNotNaN k = false) :
    setPathGo (k :: ks) v (.obj o) = .obj (jsAssign o k (setPathGo ks v (.obj []))) := by
  cases ks with
  | nil => exact absurd rfl hks
  | cons k2 kr =>
    simp [setPathGo, getPropPart, h, hnn, assignProp]

theorem rebuild_prefixed : ∀ (ll : List (List Str × JSVal)) (o : List (Str × JSVal))
    (k : Str) (c : JSVal),
    jsGet o k = some c → (∀ q ∈ ll, q.1 ≠ []) →
    rebuild (.obj o) (ll.map (fun q => (k :: q.1, q.2))) = .obj (jsAssign o k (rebuild c ll))
  | [], o, k, c, hget, _ => by simp [rebuild, jsAssign_self hget]
  | (ks, v) :: rest, o, k, c, hget, hne => by
    have hks : ks ≠ [] := hne (ks, v) (by simp)
    simp only [List.map_cons, rebuild]
    rw [setPathGo_cons_existing hks v hget]
    rw [rebuild_prefixed rest _ k (setPathGo ks v c) (jsGet_jsAssign_self o k _)
      (fun q h => hne q (List.mem_cons_of_mem _ h))]
    rw [jsAssign_jsAssign]

theorem jsAssign_append_last {α : Type} {o : List (Str × α)} {k : Str}
    (x y : α) (h : strMem k (mapKeys o) = false) :
    jsAssign (o ++ [(k, x)]) k y = o ++ [(k, y)] := by
  induction o with
  | nil => simp [jsAssign]
  | cons p rest ih =>
    obtain ⟨k', v'⟩ := p
    simp only [mapKeys, List.map_cons, strMem, Bool.or_eq_false_iff,
      decide_eq_false_iff_not] at h
    simp only [List.cons_append, jsAssign, if_neg h.1, List.append_eq]
    rw [ih (by simpa [mapKeys] using h.2)]

theorem jsGet_append_last {α : Type} {o : List (Str × α)} {k : Str} (x : α)
    (h : jsGet o k = none) : jsGet (o ++ [(k, x)]) k = some x := by
  induction o with
  | nil => simp [jsGet]
  | cons p rest ih =>
    obtain ⟨k', v'⟩ := p
    by_cases hk : k' = k
    · subst hk
      simp [jsGet] at h
    · simp only [jsGet, if_neg hk] at h
      simp only [List.cons_append, jsGet, if_neg hk]
      exact ih h

theorem strMem_snoc_of_ne {o : List (Str × JSVal)} {k : Str} (x : JSVal)
    {k' : Str} (h1 : strMem k' (mapKeys o) = false) (h2 : k' ≠ k) :
    strMem k' (mapKeys (o ++ [(k, x)])) = false := by
  have hmk : mapKeys (o ++ [(k, x)]) = mapKeys o ++ [k] := by simp [mapKeys]
  rw [hmk, strMem_append, h1]
  simp [strMem, Ne.symm h2]

theorem disj_snoc {rest o : List (Str × JSVal)} {k : Str} (x : JSVal)
    (hdisj : ∀ kv ∈ rest, strMem kv.1 (mapKeys o) = false)
    (hmem : strMem k (mapKeys rest) = false) :
    ∀ kv ∈ rest, strMem kv.1 (mapKeys (o ++ [(k, x)])) = false := by
  intro kv hkv
  refine strMem_snoc_of_ne x (hdisj kv hkv) ?_
  intro he
  have : strMem k (mapKeys rest) = true := by
    rw [strMem_true_iff]
    exact he ▸ List.mem_map_of_mem Prod.fst hkv
  rw [this] at hmem
  cases hmem

theorem kleavesEntries_paths : ∀ (kvs : List (Str × JSVal)),
    ∀ q ∈ kleavesEntries kvs, q.1 ≠ []
  | [], q, hq => by cases hq
  | (k, v) :: rest, q, hq => by
    simp only [kleavesEntries] at hq
    rcases List.mem_append.mp hq with h1 | h1
    · obtain ⟨p, _, rfl⟩ := List.mem_map.mp h1
      simp
    · exact kleavesEntries_paths rest q h1

theorem kleaves_ne_nil : ∀ (v : JSVal), goodVal v = true → kleaves v ≠ [] := by
  intro v
  induction v using JSVal.inductionOn with
  | hstr s => intro _; simp [kleaves]
  | hnum n => intro _; simp [kleaves]
  | hnumDec m e => intro h; simp [goodVal] at h
  | hnan => intro h; simp [goodVal] at h
  | hbool b => intro _; simp [kleaves]
  | hnull => intro _; simp [kleaves]
  | hundef => intro h; simp [goodVal] at h
  | harr l ih => intro h; simp [goodVal] at h
  | hobj kvs ih =>
    intro h
    simp only [goodVal, Bool.and_eq_true] at h
    cases kvs with
    | nil => simp at h
    | cons p rest =>
      obtain ⟨k, v⟩ := p
      have hv : goodVal v = true := (goodEntries_mem h.2 (List.mem_cons_self _ _)).2
      have : kleaves v ≠ [] := ih (k, v) (List.mem_cons_self _ _) hv
      simp only [kleaves, kleavesEntries, ne_eq, List.append_eq_nil, List.map_eq_nil_iff,
        not_and]
      intro hcon
      exact absurd hcon this

/-- The reconstruction core: folding `setPath` over the leaves of a good
entry list extends the accumulator object by exactly those entries. -/
theorem rebuild_entries : ∀ (kvs o : List (Str × JSVal)),
    goodEntries kvs = true →
    (∀ kv ∈ kvs, strMem kv.1 (mapKeys o) = false) →
    rebuild (.obj o) (kleavesEntries kvs) = .obj (o ++ kvs)
  | [], o, _, _ => by simp [kleavesEntries, rebuild]
  | (k, v) :: rest, o, hg, hdisj => by
    simp only [goodEntries, Bool.and_eq_true, Bool.not_eq_true'] at hg
    obtain ⟨⟨⟨hk, hmem⟩, hv⟩, hrest⟩ := hg
    have hkO : strMem k (mapKeys o) = false := hdisj (k, v) (by simp)
    have hgetO : jsGet o k = none := jsGet_eq_none_of_not_strMem hkO
    have hdisjR : ∀ kv ∈ rest, strMem kv.1 (mapKeys o) = false :=
      fun kv hkv => hdisj kv (List.mem_cons_of_mem _ hkv)
    simp only [kleavesEntries]
    rw [rebuild_append]
    have hform : (∃ inner, v = .obj inner) ∨ kleaves v = [([], v)] := by
      cases v with
      | obj inner => exact Or.inl ⟨inner, rfl⟩
      | arr items => simp [goodVal] at hv
      | str s => exact Or.inr rfl
      | num n => exact Or.inr rfl
      | numDec m e => exact Or.inr rfl
      | nan => exact Or.inr rfl
      | bool b => exact Or.inr rfl
      | null => exact Or.inr rfl
      | undef => exact Or.inr rfl
    rcases hform with ⟨inner, hveq⟩ | hkl
    · have hvin : goodVal (JSVal.obj inner) = true := hveq ▸ hv
      have hinner : goodEntries inner = true := by
        simp only [goodVal, Bool.and_eq_true] at hvin
        exact hvin.2
      rw [hveq]
      cases hkl : kleavesEntries inner with
      | nil =>
        exact absurd (by simpa [kleaves] using hkl) (kleaves_ne_nil (.obj inner) hvin)
      | cons q tail =>
        obtain ⟨ks₀, v₀⟩ := q
        have hks₀ : ks₀ ≠ [] :=
          kleavesEntries_paths inner (ks₀, v₀) (by rw [hkl]; simp)
        simp only [kleaves, hkl, List.map_cons, rebuild]
        rw [setPathGo_cons_fresh hks₀ v₀ hgetO (jsNotNaN_eq_false_of_goodKey hk)]
        rw [jsAssign_of_not_mem _ hkO]
        rw [rebuild_prefixed tail (o ++ [(k, setPathGo ks₀ v₀ (.obj []))]) k _
          (jsGet_append_last _ hgetO)
          (fun q hq => kleavesEntries_paths inner q (by rw [hkl]; exact List.mem_cons_of_mem _ hq))]
        have hX : rebuild (setPathGo ks₀ v₀ (.obj [])) tail = .obj inner := by
          have h2 : rebuild (.obj []) (kleavesEntries inner) = .obj ([] ++ inner) :=
            rebuild_entries inner [] hinner (fun kv _ => rfl)
          rw [hkl] at h2
          simpa [rebuild] using h2
        rw [hX, jsAssign_append_last _ _ hkO]
        rw [rebuild_entries rest (o ++ [(k, .obj inner)]) hrest
          (disj_snoc _ hdisjR hmem)]
        simp
    · rw [hkl]
      simp only [List.map_cons, List.map_nil, rebuild]
      rw [show setPathGo [k] v (.obj o) = .obj (jsAssign o k v) from rfl]
      rw [jsAssign_of_not_mem v hkO]
      rw [rebuild_entries rest (o ++ [(k, v)]) hrest (disj_snoc _ hdisjR hmem)]
      simp
termination_by kvs => sizeOf kvs
decreasing_by
  · rw [hveq]
    simp only [List.cons.sizeOf_spec, Prod.mk.sizeOf_spec, JSVal.obj.sizeOf_spec]
    omega
  · simp only [List.cons.sizeOf_spec, Prod.mk.sizeOf_spec]
    omega
  · simp only [List.cons.sizeOf_spec, Prod.mk.sizeOf_spec]
    omega

/-! ### Assembling the round-trip -/

theorem good_val_form (v : JSVal) (hv : goodVal v = true) :
    (∃ inner, v = .obj inner) ∨
      (kleaves v = [([], v)] ∧ ∀ kvs2, v ≠ JSVal.obj kvs2) := by
  cases v with
  | obj inner => exact Or.inl ⟨inner, rfl⟩
  | arr items => simp [goodVal] at hv
  | nan => simp [goodVal] at hv
  | undef => simp [goodVal] at hv
  | numDec m e => simp [goodVal] at hv
  | str s => exact Or.inr ⟨rfl, fun kvs2 h => by cases h⟩
  | num n => exact Or.inr ⟨rfl, fun kvs2 h => by cases h⟩
  | bool b => exact Or.inr ⟨rfl, fun kvs2 h => by cases h⟩
  | null => exact Or.inr ⟨rfl, fun kvs2 h => by cases h⟩

theorem kleavesEntries_good : ∀ (kvs : List (Str × JSVal)), goodEntries kvs = true →
    ∀ q ∈ kleavesEntries kvs, (∀ k ∈ q.1, goodKey k = true) ∧ goodVal q.2 = true ∧
      (∀ kvs2, q.2 ≠ JSVal.obj kvs2)
  | [], _, q, hq => by cases hq
  | (k, v) :: rest, hg, q, hq => by
    simp only [goodEntries, Bool.and_eq_true, Bool.not_eq_true'] at hg
    obtain ⟨⟨⟨hk, _⟩, hv⟩, hrest⟩ := hg
    simp only [kleavesEntries] at hq
    rcases List.mem_append.mp hq with h1 | h1
    · obtain ⟨p, hp, rfl⟩ := List.mem_map.mp h1
      rcases good_val_form v hv with ⟨inner, hveq⟩ | ⟨hkl, hnotobj⟩
      · have hvin : goodVal (JSVal.obj inner) = true := hveq ▸ hv
        have hinner : goodEntries inner = true := by
          simp only [goodVal, Bool.and_eq_true] at hvin
          exact hvin.2
        have hp' : p ∈ kleavesEntries inner := by
          rw [hveq] at hp
          simpa [kleaves] using hp
        obtain ⟨hkeys, hgood, hnobj⟩ := kleavesEntries_good inner hinner p hp'
        refine ⟨?_, hgood, hnobj⟩
        intro k' hk'
        rcases List.mem_cons.mp hk' with h2 | h2
        · exact h2 ▸ hk
        · exact hkeys k' h2
      · rw [hkl] at hp
        rcases List.mem_singleton.mp hp with rfl
        refine ⟨?_, hv, hnotobj⟩
        intro k' hk'
        rcases List.mem_cons.mp hk' with h2 | h2
        · exact h2 ▸ hk
        · cases h2
    · exact kleavesEntries_good rest hrest q h1
termination_by kvs => sizeOf kvs
decreasing_by
  · rw [hveq]
    simp only [List.cons.sizeOf_spec, Prod.mk.sizeOf_spec, JSVal.obj.sizeOf_spec]
    omega
  · simp only [List.cons.sizeOf_spec, Prod.mk.sizeOf_spec]
    omega

theorem splitPath_keyJoin {ks : List Str} (hne : ks ≠ [])
    (hkeys : ∀ k ∈ ks, goodKey k = true) : splitPath (keyJoin ks) = ks := by
  unfold splitPath keyJoin
  rw [splitOnPred_joinChar (by decide) ks hne ?hfree]
  case hfree =>
    intro part hp
    have hall := (goodKey_unpack (hkeys part hp)).2.1
    simp only [List.all_eq_true] at hall ⊢
    intro c hc
    have h4 := hall c hc
    simp only [Bool.and_eq_true, bne_iff_ne, ne_eq] at h4
    simp only [Bool.not_eq_true', Bool.or_eq_false_iff, decide_eq_false_iff_not]
    exact ⟨⟨h4.1.1.1, h4.1.1.2⟩, h4.1.2⟩
  rw [List.filter_eq_self.mpr]
  intro a ha
  simpa using (goodKey_unpack (hkeys a ha)).1

theorem buildPairs_good : ∀ (ll : List (List Str × JSVal)) (o : JSVal),
    (∀ q ∈ ll, q.1 ≠ [] ∧ (∀ k ∈ q.1, goodKey k = true) ∧ goodVal q.2 = true ∧
      (∀ kvs, q.2 ≠ JSVal.obj kvs)) →
    buildPairs (pairTokens (ll.map (fun q => (keyJoin q.1, jsToString q.2)))) o
      = rebuild o ll
  | [], o, _ => rfl
  | (ks, v) :: rest, o, hq => by
    obtain ⟨hne, hkeys, hgood, hscal⟩ := hq (ks, v) (List.mem_cons_self _ _)
    have hksne : ∀ x ∈ ks, x ≠ [] := fun x hx => (goodKey_unpack (hkeys x hx)).1
    have hpne : keyJoin ks ≠ [] := by
      rw [ne_eq, keyJoin_eq_nil hksne]
      exact hne
    have hsplit : splitPath (keyJoin ks) = ks := splitPath_keyJoin hne hkeys
    simp only [List.map_cons, pairTokens]
    rw [show buildPairs (keyJoin ks :: jsToString v ::
        pairTokens (rest.map (fun q => (keyJoin q.1, jsToString q.2)))) o
        = buildPairs (pairTokens (rest.map (fun q => (keyJoin q.1, jsToString q.2))))
            (setPathVal o (keyJoin ks) (parseValue (jsToString v))) from by
      simp [buildPairs, hpne]]
    have hspv : setPathVal o (keyJoin ks) (parseValue (jsToString v))
        = setPathGo ks (parseValue (jsToString v)) o := by
      unfold setPathVal
      rw [hsplit]
      cases ks with
      | nil => exact absurd rfl hne
      | cons a b => rfl
    rw [hspv, parseValue_jsToString_good v hgood hscal]
    rw [buildPairs_good rest _ (fun q h => hq q (List.mem_cons_of_mem _ h))]
    rfl

theorem pairTokens_mem : ∀ {ps : List (Str × Str)} {t : Str},
    t ∈ pairTokens ps → ∃ q ∈ ps, t = q.1 ∨ t = q.2
  | [], t, ht => by cases ht
  | (p, v) :: rest, t, ht => by
    simp only [pairTokens, List.mem_cons] at ht
    rcases ht with h | h | h1
    · exact ⟨(p, v), List.mem_cons_self _ _, Or.inl h⟩
    · exact ⟨(p, v), List.mem_cons_self _ _, Or.inr h⟩
    · obtain ⟨q, hq, ho⟩ := pairTokens_mem h1
      exact ⟨q, List.mem_cons_of_mem _ hq, ho⟩

theorem sepFree_keyJoin {ks : List Str} (h : ∀ k ∈ ks, sepFree k = true) :
    sepFree (keyJoin ks) = true := by
  induction ks with
  | nil => rfl
  | cons a rest ih =>
    cases rest with
    | nil => simpa [keyJoin, joinChar] using h a (List.mem_cons_self _ _)
    | cons b r2 =>
      have ha := h a (List.mem_cons_self _ _)
      have hr := ih (fun k hk => h k (List.mem_cons_of_mem _ hk))
      simp only [keyJoin, joinChar] at hr ⊢
      rw [show (a ++ '.' :: joinChar '.' (b :: r2) : Str)
          = a ++ '.' :: joinChar '.' (b :: r2) from rfl]
      rw [sepFree_append]
      simp only [Bool.and_eq_true]
      refine ⟨ha, ?_⟩
      simp only [sepFree, List.all_cons, Bool.and_eq_true]
      exact ⟨by decide, hr⟩

theorem sepFree_goodKey {k : Str} (h : goodKey k = true) : sepFree k = true := by
  have hall := (goodKey_unpack h).2.1
  simp only [List.all_eq_true] at hall
  simp only [sepFree, List.all_eq_true]
  intro c hc
  have h4 := hall c hc
  simp only [Bool.and_eq_true, bne_iff_ne, ne_eq] at h4
  simpa using h4.2

theorem sepFree_intToStr (n : Int) : sepFree (intToStr n) = true := by
  have hdig : ∀ c : Char, c.isDigit = true → (c != sepChar) = true := by
    intro c hc
    simp only [bne_iff_ne, ne_eq]
    intro he
    subst he
    exact absurd hc (by decide)
  by_cases hneg : n < 0
  · obtain ⟨_, hd, _⟩ := natToStr_spec n.natAbs
    simp only [intToStr, if_pos hneg, sepFree, List.all_cons, Bool.and_eq_true]
    refine ⟨by decide, ?_⟩
    simp only [List.all_eq_true] at hd ⊢
    exact fun c hc => hdig c (hd c hc)
  · obtain ⟨_, hd, _⟩ := natToStr_spec n.toNat
    simp only [intToStr, if_neg hneg, sepFree]
    simp only [List.all_eq_true] at hd ⊢
    exact fun c hc => hdig c (hd c hc)

theorem sepFree_jsToString_scalar {v : JSVal} (hgood : goodVal v = true)
    (hscal : ∀ kvs, v ≠ JSVal.obj kvs) : sepFree (jsToString v) = true := by
  cases v with
  | str s =>
    exact (goodStrVal_unpack (by simpa [goodVal] using hgood)).1
  | num n => exact sepFree_intToStr n
  | bool b => cases b <;> decide
  | null => decide
  | obj kvs => exact absurd rfl (hscal kvs)
  | numDec m e => simp [goodVal] at hgood
  | nan => simp [goodVal] at hgood
  | undef => simp [goodVal] at hgood
  | arr items => simp [goodVal] at hgood

/-- C1 (amended): `decode (encode t)` reproduces `t` for every good tree:
a nonempty tree of nested objects whose scalar leaves are representable
(strings neither coercible nor separator-bearing, integral numbers,
booleans, `null`), whose keys are nonempty, non-numeric, free of `.[]⟁`,
and where — per the claim's proviso — no key or string value collides with
a dictionary token in either direction. -/
theorem c1_roundtrip (t : JSVal) (h : goodTree t = true) :
    decode (encode t) = Sum.inr t := by
  obtain ⟨kvs, rfl⟩ : ∃ kvs, t = JSVal.obj kvs := by
    cases t with
    | obj kvs => exact ⟨kvs, rfl⟩
    | str s => simp [goodTree] at h
    | num n => simp [goodTree] at h
    | numDec m e => simp [goodTree] at h
    | nan => simp [goodTree] at h
    | bool b => simp [goodTree] at h
    | null => simp [goodTree] at h
    | undef => simp [goodTree] at h
    | arr l => simp [goodTree] at h
  have hv : goodVal (JSVal.obj kvs) = true := by simpa [goodTree] using h
  have hent : goodEntries kvs = true := by
    simp only [goodVal, Bool.and_eq_true] at hv
    exact hv.2
  have hqs := kleavesEntries_good kvs hent
  have hpaths := kleavesEntries_paths kvs
  have hleafgood : ∀ q ∈ kleavesEntries kvs,
      q.1 ≠ [] ∧ (∀ k ∈ q.1, goodKey k = true) ∧ goodVal q.2 = true ∧
        (∀ kvs2, q.2 ≠ JSVal.obj kvs2) := by
    intro q hq
    obtain ⟨hkeys, hgood, hnobj⟩ := hqs q hq
    exact ⟨hpaths q hq, hkeys, hgood, hnobj⟩
  -- The token list the encoder produces.
  have henc : encode (JSVal.obj kvs) = joinChar sepChar
      (pairTokens ((kleavesEntries kvs).map
        (fun q => (keyJoin q.1, jsToString q.2)))) := by
    show objectToSCXString (compressObject (JSVal.obj kvs)) = _
    rw [compressObject_good _ hv]
    unfold objectToSCXString
    rw [flattenParts_eq_pairTokens _ hv []]
    have hB := pairsOf_eq_kleaves (JSVal.obj kvs) hv [] (by intro x hx; cases hx)
    simp only [List.nil_append, kleaves] at hB
    rw [show (pairsOf (JSVal.obj kvs) [] : List (Str × Str))
      = pairsOf (JSVal.obj kvs) (keyJoin []) from rfl, hB]
  have hknil : kleavesEntries kvs ≠ [] := by
    have := kleaves_ne_nil (JSVal.obj kvs) hv
    simpa [kleaves] using this
  -- All tokens are separator-free.
  have htokfree : ∀ tok ∈ pairTokens ((kleavesEntries kvs).map
      (fun q => (keyJoin q.1, jsToString q.2))),
      tok.all (fun c => !(decide (c = sepChar))) = true := by
    intro tok htok
    obtain ⟨p, hp, ho⟩ := pairTokens_mem htok
    obtain ⟨q, hq, rfl⟩ := List.mem_map.mp hp
    obtain ⟨_, hkeys, hgood, hnobj⟩ := hleafgood q hq
    have : sepFree tok = true := by
      rcases ho with rfl | rfl
      · exact sepFree_keyJoin (fun k hk => sepFree_goodKey (hkeys k hk))
      · exact sepFree_jsToString_scalar hgood hnobj
    simpa [sepFree] using this
  cases hkl : kleavesEntries kvs with
  | nil => exact absurd hkl hknil
  | cons q0 ll =>
    rw [henc, hkl]
    simp only [List.map_cons, pairTokens]
    have hsep_in : ((joinChar sepChar (keyJoin q0.1 :: jsToString q0.2 ::
        pairTokens (ll.map (fun q => (keyJoin q.1, jsToString q.2))))).any
        (fun c => c = sepChar)) = true := by
      simp [joinChar, List.any_append]
    unfold decode
    rw [if_pos hsep_in]
    unfold scxStringToObject
    rw [splitOnPred_joinChar (by simp) _ (by simp) ?hfree2]
    case hfree2 =>
      intro part hpart
      have := htokfree part (by
        rw [hkl]
        simpa [pairTokens] using hpart)
      simpa using this
    have hbg := buildPairs_good (kleavesEntries kvs) (.obj []) hleafgood
    rw [hkl] at hbg
    simp only [List.map_cons, pairTokens] at hbg
    rw [hbg, ← hkl, rebuild_entries kvs [] hent (fun kv _ => rfl)]
    simp only [List.nil_append]
    rw [decompressObject_good _ hv]

/-- Witness for C1 (amended): the nested tree
`{cfg: {name: "users", cnt: 2}, ok: true}` is good and round-trips. -/
theorem c1_roundtrip_witness :
    goodTree (JSVal.obj [(S "cfg", .obj [(S "name", .str (S "users")),
      (S "cnt", .num 2)]), (S "ok", .bool true)]) = true ∧
    decode (encode (JSVal.obj [(S "cfg", .obj [(S "name", .str (S "users")),
      (S "cnt", .num 2)]), (S "ok", .bool true)])) =
      Sum.inr (JSVal.obj [(S "cfg", .obj [(S "name", .str (S "users")),
        (S "cnt", .num 2)]), (S "ok", .bool true)]) :=
  ⟨by decide, c1_roundtrip _ (by decide)⟩

/-- Thrown JS exceptions of the modelled core, plus the fuel artifact of
the shallow embedding (`fuelOut` marks an exhausted recursion budget, not
a behaviour of the source). -/
inductive JsErr where
  | jsonSyntax
  | xjsonParse
  | shardNotFound (id : JSVal)
  | noHandler (key : Str) (id : JSVal)
  | typeErr
  | fuelOut

/-! ## K'uhul VM (`lib/kuhul/vm.js`, `KuhulVM`)

The engine state is the instance state of one `KuhulVM` object.  `stack`
keeps its top at the head.  `dispatched` and `log` are ghost
instrumentation: `dispatched` counts `executeInstruction` invocations and
`log` records `console.warn` diagnostics; no glyph reads either. -/

/-- One parsed instruction `[glyph args...]`. -/
structure Inst where
  glyph : Str
  args : List Str

/-- The mutable state of a `KuhulVM` instance. -/
structure VMState where
  stack : List JSVal
  vars : List (Str × JSVal)
  functions : List (Str × List Str)
  currentFunction : Option Str
  loopContext : Option (Option Str × Nat)
  halted : Bool
  dispatched : Nat
  log : List Str

/-- A freshly constructed `KuhulVM`. -/
def initVM : VMState :=
  { stack := [], vars := [], functions := [], currentFunction := none,
    loopContext := none, halted := false, dispatched := 0, log := [] }

/-- JS truthiness. -/
def jsTruthy : JSVal → Bool
  | .str s => !s.isEmpty
  | .num n => n != 0
  | .numDec m _ => m != 0
  | .nan => false
  | .bool b => b
  | .null => false
  | .undef => false
  | .arr _ => true
  | .obj _ => true

/-- JS `\w` test for the glyph pattern `\w+'?`. -/
def isWordChar (c : Char) : Bool := wordChar c

/-- Split an argument string on runs of whitespace, dropping empties
(`argsStr.split(/\s+/).filter(Boolean)`). -/
def splitArgs (s : Str) : List Str :=
  (splitOnPred isWS s).filter (· ≠ [])

/-- Match one trimmed line against `^\[(\w+'?)\s*(.*?)\]$`: an opening
bracket, a glyph of word characters with one optional apostrophe, then
anything up to a closing bracket that must end the line. -/
def parseLine (l : Str) : Option Inst :=
  match l with
  | '[' :: rest =>
    let wcs := rest.takeWhile isWordChar
    if wcs.isEmpty then none
    else
      let after := rest.drop wcs.length
      let (glyph, after2) :=
        match after with
        | c :: r => if c = apoChar then (wcs ++ [apoChar], r) else (wcs, after)
        | [] => (wcs, ([] : Str))
      if after2.getLast? = some ']' then
        some ⟨glyph, splitArgs after2.dropLast⟩
      else none
  | _ => none

/-- Collect the parsed instructions of the non-blank, non-comment lines. -/
def parseLines : List Str → List Inst
  | [] => []
  | l :: rest =>
    match l with
    | '#' :: _ => parseLines rest
    | _ =>
      match parseLine l with
      | some i => i :: parseLines rest
      | none => parseLines rest

/-- The single-element `join` coercion used when a non-string handler is
wrapped into a synthetic `Sek` instruction (`[code].join(' ')`). -/
def jsJoinElem : JSVal → Str
  | .null => []
  | .undef => []
  | v => jsToString v

/-- `KuhulVM.parse`: split a textual program into trimmed nonempty lines
and match each; a non-string handler becomes one synthetic `Sek`. -/
def vmParse (code : JSVal) : List Inst :=
  match code with
  | .str s =>
    parseLines (((splitOnPred (fun c => c = Char.ofNat 10) s).map trimWS).filter (· ≠ []))
  | c => [⟨S "Sek", [jsJoinElem c]⟩]

/-- Join instruction arguments with single spaces (`args.join(' ')`). -/
def joinSpace (xs : List Str) : Str := joinChar ' ' xs

/-- The `console.warn` text for an unknown glyph. -/
def warnUnknown (g : Str) : Str :=
  S "[K" ++ apoChar :: S "uhul] Unknown glyph: " ++ g

/-- The `console.warn` text for an unbound variable. -/
def warnVarNotFound (n : Str) : Str :=
  S "[K" ++ apoChar :: S "uhul] Variable not found: " ++ n

/-- Seed the variable map from a context object (`execute`'s first loop). -/
def seedVars (ctx : List (Str × JSVal)) (s : VMState) : VMState :=
  { s with vars := ctx.foldl (fun m p => jsAssign m p.1 p.2) s.vars }

/-- `execute`'s return value: stack top if any, else the variables as an
object. -/
def vmResult (s : VMState) : JSVal :=
  match s.stack with
  | top :: _ => top
  | [] => .obj s.vars

/-- `Pop`: define a function scope (`if (funcName)` — an absent or empty
name is falsy and does nothing). -/
def gPop (args : List Str) (s : VMState) : VMState :=
  match args.head? with
  | some name =>
    if name.isEmpty then s
    else { s with currentFunction := some name,
                  functions := jsAssign s.functions name [] }
  | none => s

/-- `Wo`: parse the joined argument as a literal and push it.  A malformed
`{`/`[` literal makes `JSON.parse` throw. -/
def gWo (args : List Str) (s : VMState) : Except JsErr VMState :=
  let value := joinSpace args
  match value with
  | c :: _ =>
    if c = '"' || c = apoChar then
      .ok { s with stack := .str ((value.drop 1).dropLast) :: s.stack }
    else if value = S "true" then .ok { s with stack := .bool true :: s.stack }
    else if value = S "false" then .ok { s with stack := .bool false :: s.stack }
    else if jsNotNaN value then .ok { s with stack := parseFloatJS value :: s.stack }
    else if c = '{' || c = '[' then
      match jsonParse value with
      | some t => .ok { s with stack := t :: s.stack }
      | none => .error .jsonSyntax
    else .ok { s with stack := .str value :: s.stack }
  | [] =>
    -- `''` is neither quoted nor a keyword; `!isNaN('')` holds and
    -- `parseFloat('')` is `NaN`.
    .ok { s with stack := parseFloatJS [] :: s.stack }

/-- `Ch'en`: pop and bind to the named variable; with no (truthy) name the
value is pushed back. -/
def gChen (args : List Str) (s : VMState) : VMState :=
  let value := match s.stack with
    | v :: _ => v
    | [] => .undef
  let stack' := s.stack.tail
  match args.head? with
  | some name =>
    if name.isEmpty then { s with stack := value :: stack' }
    else { s with stack := stack', vars := jsAssign s.vars name value }
  | none => { s with stack := value :: stack' }

/-- `Yax`: push the named variable's value, or warn and push `null` when it
is absent (or bound to `undefined`). -/
def gYax (args : List Str) (s : VMState) : VMState :=
  let name := args.head?
  let value := match name with
    | some n => (jsGet s.vars n).getD .undef
    | none => .undef
  match value with
  | .undef =>
    { s with stack := .null :: s.stack,
             log := s.log ++ [warnVarNotFound (name.getD (S "undefined"))] }
  | v => { s with stack := v :: s.stack }

/-- `K'ayab'`: open a named loop context. -/
def gKayab (args : List Str) (s : VMState) : VMState :=
  { s with loopContext := some (args.head?, 0) }

/-- `Kumk'u`: clear the loop context. -/
def gKumku (_ : List Str) (s : VMState) : VMState :=
  { s with loopContext := none }

/-- `Xul`: set the halted flag. -/
def gXul (_ : List Str) (s : VMState) : VMState :=
  { s with halted := true }

/-- Property read for `Sek get` (`obj?.[key] || null` with `key`
always the string `"undefined"` there, since the `get` case only fires
when the joined operation is exactly `get`). -/
def sekPropGet (o : JSVal) (k : Str) : JSVal :=
  match o with
  | .obj kvs => (jsGet kvs k).getD .undef
  | _ => .undef

mutual

/-- The instruction loop of `execute`: stop at the end of the list or as
soon as `halted` is observed. -/
def vmRun : Nat → List Inst → VMState → Except JsErr VMState
  | _, [], s => .ok s
  | fuel, i :: rest, s =>
    if s.halted then .ok s
    else
      match fuel with
      | 0 => .error .fuelOut
      | f + 1 =>
        match vmExecInst f i s with
        | .error e => .error e
        | .ok s' => vmRun f rest s'

/-- `KuhulVM.executeInstruction`: dispatch on the glyph table; an unknown
glyph warns and does nothing. -/
def vmExecInst : Nat → Inst → VMState → Except JsErr VMState
  | fuel, i, s =>
    let s := { s with dispatched := s.dispatched + 1 }
    if i.glyph = S "Pop" then .ok (gPop i.args s)
    else if i.glyph = S "Wo" then gWo i.args s
    else if i.glyph = chenStr then .ok (gChen i.args s)
    else if i.glyph = S "Yax" then .ok (gYax i.args s)
    else if i.glyph = S "Sek" then
      match fuel with
      | 0 => .error .fuelOut
      | f + 1 => vmSek f i.args s
    else if i.glyph = kayabStr then .ok (gKayab i.args s)
    else if i.glyph = kumkuStr then .ok (gKumku i.args s)
    else if i.glyph = S "Xul" then .ok (gXul i.args s)
    else .ok { s with log := s.log ++ [warnUnknown i.glyph] }

/-- `Sek`: quoted literals push; the fixed operation vocabulary dispatches;
otherwise a user function runs or a generic marker is pushed. -/
def vmSek : Nat → List Str → VMState → Except JsErr VMState
  | fuel, args, s =>
    let operation := joinSpace args
    if (match operation with
        | c :: _ => c = '"' || c = apoChar
        | [] => false) then
      .ok { s with stack := .str ((operation.drop 1).dropLast) :: s.stack }
    else if operation = S "get" then
      let key := (args.get? 1).getD (S "undefined")
      let obj := match s.stack with
        | v :: _ => v
        | [] => .undef
      let res := sekPropGet obj key
      .ok { s with stack := (if jsTruthy res then res else .null) :: s.stack.tail }
    else if operation = S "for_each" || operation = S "forEach" then
      let fn : JSVal := match args.get? 1 with
        | some a => .str a
        | none => .undef
      let arr := match s.stack with
        | v :: _ => v
        | [] => .undef
      let s' := { s with stack := s.stack.tail }
      match arr with
      | .arr items =>
        match fuel with
        | 0 => .error .fuelOut
        | f + 1 => vmForEach f fn items s'
      | _ => .ok s'
    else if operation = S "scx_decompress" || operation = S "xjson_parse" ||
        operation = S "xj_compile_view" || operation = S "register_virtual_api" ||
        operation = S "start_virtual_server" then
      let input := match s.stack with
        | v :: _ => v
        | [] => .undef
      .ok { s with stack := input :: s.stack.tail }
    else if operation = S "process" || operation = S "process_data" ||
        operation = S "send_response" then
      let d := match s.stack with
        | v :: _ => v
        | [] => .undef
      let marker := JSVal.obj [(S "processed", .bool true), (S "data", d)]
      .ok { s with stack := marker :: s.stack.tail }
    else
      match jsGet s.functions operation with
      | some func =>
        match fuel with
        | 0 => .error .fuelOut
        | f + 1 =>
          match vmExecute f (.str (joinChar (Char.ofNat 10) func)) s.vars s with
          | .error e => .error e
          | .ok (_, s') => .ok s'
      | none =>
        let marker := JSVal.obj [(S "operation", .str operation), (S "executed", .bool true)]
        .ok { s with stack := marker :: s.stack }

/-- The `for (const item of arr)` loop of `Sek for_each`: bind `item`,
run the (always discarded) recursive `execute`. -/
def vmForEach : Nat → JSVal → List JSVal → VMState → Except JsErr VMState
  | _, _, [], s => .ok s
  | fuel, fn, item :: rest, s =>
    let s := { s with vars := jsAssign s.vars (S "item") item }
    match fuel with
    | 0 => .error .fuelOut
    | f + 1 =>
      match vmExecute f fn s.vars s with
      | .error e => .error e
      | .ok (_, s') => vmForEach f fn rest s'

/-- `KuhulVM.execute`: seed the variables from the context, parse, run the
loop, and return the stack top (or the variables object). -/
def vmExecute : Nat → JSVal → List (Str × JSVal) → VMState →
    Except JsErr (JSVal × VMState)
  | fuel, code, ctx, s =>
    let s := seedVars ctx s
    match fuel with
    | 0 => .error .fuelOut
    | f + 1 =>
      match vmRun f (vmParse code) s with
      | .error e => .error e
      | .ok s' => .ok (vmResult s', s')

end

/-! ## Hive orchestrator (`server/core/hive-orchestrator.js`) -/

/-- `Map` key equality (SameValueZero) for the shard registries: primitives
compare by value (`NaN` equals itself), while object and array keys are
compared by reference — and since every key in the modelled flows is either
a primitive or a freshly-created literal, object keys never compare equal. -/
def jsKeyEq : JSVal → JSVal → Bool
  | .str a, .str b => a = b
  | .num a, .num b => a = b
  | .numDec a b, .numDec c d => a = c && b = d
  | .nan, .nan => true
  | .bool a, .bool b => a = b
  | .null, .null => true
  | .undef, .undef => true
  | _, _ => false

/-- `Map.get` with SameValueZero keys. -/
def kGet {α : Type} (m : List (JSVal × α)) (k : JSVal) : Option α :=
  match m with
  | [] => none
  | (k', v') :: rest => if jsKeyEq k' k then some v' else kGet rest k

/-- `Map.set` with SameValueZero keys. -/
def kAssign {α : Type} (m : List (JSVal × α)) (k : JSVal) (v : α) : List (JSVal × α) :=
  match m with
  | [] => [(k, v)]
  | (k', v') :: rest =>
    if jsKeyEq k' k then (k', v) :: rest else (k', v') :: kAssign rest k v

/-- JS property read `v[k]` at the orchestrator's call sites (where `v` is
never `null`/`undefined` — those are screened off before any access). -/
def getProp (v : JSVal) (k : Str) : JSVal :=
  match v with
  | .obj kvs => (jsGet kvs k).getD .undef
  | _ => (.undef : JSVal)

/-- `v.name || v['⟁name']` (the orchestrator's prefixed-key fallback). -/
def propOr (v : JSVal) (name : Str) : JSVal :=
  let a := getProp v name
  if jsTruthy a then a else getProp v (sepChar :: name)

/-- `v.name || v['⟁name'] || dflt`. -/
def propOrD (v : JSVal) (name : Str) (dflt : JSVal) : JSVal :=
  let a := propOr v name
  if jsTruthy a then a else dflt

/-- One registry record `{id, port, endpoints}`; an endpoint is the
`(method, path)` pair of `{method: r.method || r['⟁method'], path: ...}`
(note: no `GET` default here, unlike the handler compilation). -/
structure RegEntry where
  id : JSVal
  port : JSVal
  endpoints : List (JSVal × JSVal)

/-- One shard instance as `createShard` builds it. -/
structure ShardInst where
  id : JSVal
  port : JSVal
  runtime : JSVal
  api : List JSVal
  view : JSVal
  handlers : List (Str × JSVal)
  state : List (Str × JSVal)
  vm : Option VMState
  created : Nat

/-- The `HiveOrchestrator` instance state. -/
structure Orch where
  id : JSVal
  shards : List (JSVal × ShardInst)
  meshProtocol : JSVal
  meshPorts : List (JSVal × JSVal)
  registry : List (JSVal × RegEntry)
  booted : Bool

/-- A freshly constructed orchestrator (`uid` stands for the generated
`randomUUID()`). -/
def initOrch (uid : Str) : Orch :=
  { id := .str uid, shards := [], meshProtocol := .str (S "virtual-rest"),
    meshPorts := [], registry := [], booted := false }

/-- `XJSONParser.parse` on textual input: `JSON.parse` (throwing on bad
input) followed by `normalize`. -/
def xjsonParse (s : Str) : Except JsErr JSVal :=
  match jsonParse s with
  | some t => .ok (normalize t)
  | none => .error .xjsonParse

/-- Compile the `api` routes into the `METHOD:path` handler map.  A `null`
or `undefined` route would make the property reads throw. -/
def compileHandlers : List JSVal → List (Str × JSVal) → Except JsErr (List (Str × JSVal))
  | [], acc => .ok acc
  | r :: rest, acc =>
    match r with
    | .null => .error .typeErr
    | .undef => .error .typeErr
    | r =>
      let p := propOr r (S "path")
      let m := propOrD r (S "method") (.str (S "GET"))
      let h := propOr r (S "handler")
      compileHandlers rest (jsAssign acc (jsToString m ++ ':' :: jsToString p) h)

/-- The first two steps of `createShard`: SCX-decompression when the
definition is a string containing `⟁`, then XJSON parsing when it is still
textual. -/
def parseShardDef (shardDef : JSVal) : Except JsErr JSVal :=
  let def1 : JSVal :=
    match shardDef with
    | .str s =>
      if s.any (fun c => c = sepChar) then
        match decode s with
        | .inl t => .str t
        | .inr v => v
      else .str s
    | v => v
  match def1 with
  | .str s => xjsonParse s
  | v => .ok v

/-- The instance-building tail of `createShard`, applied to the parsed
definition.  Property reads on `null`/`undefined` throw, as does iterating
a non-array (truthy) `api` value. -/
def mkShard (freshId : Str) (now : Nat) (o : Orch) :
    JSVal → (Orch × Except JsErr ShardInst)
  | .null => (o, .error .typeErr)
  | .undef => (o, .error .typeErr)
  | shard =>
    match propOrD shard (S "api") (.arr []) with
    | .arr apiItems =>
      match compileHandlers apiItems [] with
      | .error e => (o, .error e)
      | .ok handlers =>
        let shardId := propOrD shard (S "id") (.str freshId)
        let port := propOrD shard (S "port") (.num 3001)
        let runtime := propOrD shard (S "runtime") (.str (S "kuhul"))
        let view := propOrD shard (S "view") .null
        let isKuhul : Bool := match runtime with
          | .str s => s = S "kuhul"
          | _ => false
        let inst : ShardInst :=
          { id := shardId, port := port, runtime := runtime, api := apiItems,
            view := view, handlers := handlers, state := [],
            vm := if isKuhul then some initVM else none, created := now }
        let ent : RegEntry :=
          { id := shardId, port := port,
            endpoints := apiItems.map
              (fun r => (propOr r (S "method"), propOr r (S "path"))) }
        ({ o with shards := kAssign o.shards shardId inst,
                  registry := kAssign o.registry shardId ent }, .ok inst)
    | .str s =>
      -- A truthy string `api` survives the handler loop: `for...of`
      -- iterates its characters, each a one-character string route whose
      -- `path`/`handler` reads give `undefined`, so one `GET:undefined`
      -- binding results.  `this.shards.set` then runs, and only the
      -- `shardInstance.api.map` call inside the `registry.set` argument
      -- throws — the shard map keeps the new instance while the registry
      -- is never written.  (The instance's `api` field keeps the iterated
      -- route values; no modelled flow reads it back.)
      match compileHandlers (s.map (fun c => .str [c])) [] with
      | .error e => (o, .error e)
      | .ok handlers =>
        let shardId := propOrD shard (S "id") (.str freshId)
        let port := propOrD shard (S "port") (.num 3001)
        let runtime := propOrD shard (S "runtime") (.str (S "kuhul"))
        let view := propOrD shard (S "view") .null
        let isKuhul : Bool := match runtime with
          | .str s2 => s2 = S "kuhul"
          | _ => false
        let inst : ShardInst :=
          { id := shardId, port := port, runtime := runtime,
            api := s.map (fun c => .str [c]),
            view := view, handlers := handlers, state := [],
            vm := if isKuhul then some initVM else none, created := now }
        ({ o with shards := kAssign o.shards shardId inst }, .error .typeErr)
    | _ => (o, .error .typeErr)

/-- `HiveOrchestrator.createShard`.  `freshId` stands for the
`randomUUID()` fallback and `now` for `Date.now()`.  The parse-stage and
`null`/`undefined` throws happen before any instance state is touched; a
truthy string `api` mutates the shard map before throwing (see `mkShard`),
so the possibly-mutated orchestrator is returned alongside the result. -/
def createShard (freshId : Str) (now : Nat) (o : Orch) (shardDef : JSVal) :
    (Orch × Except JsErr ShardInst) :=
  match parseShardDef shardDef with
  | .error e => (o, .error e)
  | .ok shard => mkShard freshId now o shard

/-- The `METHOD:path` lookup key of `routeToShard`. -/
def handlerKey (m p : JSVal) : Str := jsToString m ++ ':' :: jsToString p

/-- The context object's `shard` binding.  In JS this is the live shard
instance (a mutable reference, not value-representable); the model passes
its plain-data fields, which no verified handler reads. -/
def shardCtxVal (inst : ShardInst) : JSVal :=
  .obj [(S "id", inst.id), (S "port", inst.port),
        (S "runtime", inst.runtime), (S "view", inst.view)]

/-- The `{shard, data, method, path}` execution context. -/
def routeCtx (inst : ShardInst) (m p d : JSVal) : List (Str × JSVal) :=
  [(S "shard", shardCtxVal inst), (S "data", d), (S "method", m), (S "path", p)]

/-- The mock acknowledgement payload for engine-less shards. -/
def mockResponse (handler shardId : JSVal) : JSVal :=
  .obj [(S "status", .num 200),
        (S "data", .obj [(S "message",
            .str (S "Handler " ++ jsToString handler ++ S " executed")),
          (S "shard", shardId)])]

/-- `HiveOrchestrator.routeToShard`: resolve the shard and handler (both
`throw` — modelled as errors — when missing or falsy), run the shard's
persistent engine, and store its mutated state back. -/
def routeToShard (fuel : Nat) (o : Orch) (shardId m p d : JSVal) :
    Except JsErr (JSVal × Orch) :=
  match kGet o.shards shardId with
  | none => .error (.shardNotFound shardId)
  | some shard =>
    let handler := (jsGet shard.handlers (handlerKey m p)).getD .undef
    if jsTruthy handler then
      match shard.vm with
      | some vms =>
        match vmExecute fuel handler (routeCtx shard m p d) vms with
        | .error e => .error e
        | .ok (r, vms') =>
          let shard' := { shard with vm := some vms' }
          .ok (r, { o with shards := kAssign o.shards shardId shard' })
      | none => .ok (mockResponse handler shardId, o)
    else .error (.noHandler (handlerKey m p) shardId)

/-- The shard-creation loop of `boot`, consuming one fresh id per shard.
An error mid-loop keeps the shards already created, including any partial
mutation of the failing `createShard` (JS mutates in place). -/
def bootShards (now : Nat) : List JSVal → List Str → Orch →
    (Option JsErr × Orch)
  | [], _, o => (none, o)
  | d :: rest, ids, o =>
    match createShard (ids.headD (S "uuid")) now o d with
    | (o', .error e) => (some e, o')
    | (o', .ok _) => bootShards now rest ids.tail o'

/-- The positional mesh-port loop of `boot`: `ports.forEach((port, idx))`
pairs each port with the shard definition at the same index; a falsy
`shards[idx]` is skipped. -/
def meshPortStep (shardDefs : List JSVal) (idx : Nat) (port : JSVal)
    (o : Orch) : Orch :=
  match shardDefs.get? idx with
  | some sdef =>
    if jsTruthy sdef then
      { o with meshPorts := kAssign o.meshPorts (propOr sdef (S "id")) port }
    else o
  | none => o

def bootMeshPorts (shardDefs : List JSVal) : List JSVal → Nat → Orch → Orch
  | [], _, o => o
  | port :: rest, idx, o =>
    bootMeshPorts shardDefs rest (idx + 1) (meshPortStep shardDefs idx port o)

/-- The config-parsing step of `boot`: `typeof config === 'string' ?
xjson.parse(config) : config`. -/
def bootConfig (config : JSVal) : Except JsErr JSVal :=
  match config with
  | .str s => xjsonParse s
  | v => .ok v

/-- The mesh-networking step of `boot`. -/
def bootMesh (sdefs : List JSVal) (c : JSVal) (o : Orch) :
    (Option JsErr × Orch) :=
  if jsTruthy (propOr c (S "mesh")) then
    let prot := propOrD (propOr c (S "mesh")) (S "protocol")
      (.str (S "virtual-rest"))
    let o2 := { o with meshProtocol := prot }
    match propOrD (propOr c (S "mesh")) (S "ports") (.arr []) with
    | .arr ports =>
      let ob := bootMeshPorts sdefs ports 0 o2
      (none, { ob with booted := true })
    | _ => (some .typeErr, o2)
  else
    let ob := o
    (none, { ob with booted := true })

/-- The body of `boot` on the parsed configuration: set the hive id, create
the declared shards, then wire the mesh.  Property reads on a
`null`/`undefined` config throw. -/
def bootCore (freshIds : List Str) (now : Nat) (o : Orch) :
    JSVal → (Option JsErr × Orch)
  | .null => (some .typeErr, o)
  | .undef => (some .typeErr, o)
  | c =>
    match propOrD c (S "shards") (.arr []) with
    | .arr sdefs =>
      match bootShards now sdefs freshIds
          { o with id := propOrD c (S "hive") o.id } with
      | (some e, o2) => (some e, o2)
      | (none, o2) => bootMesh sdefs c o2
    | _ => (some .typeErr, { o with id := propOrD c (S "hive") o.id })

/-- `HiveOrchestrator.boot`.  JS mutates the instance as it goes, so on an
error the partially-booted state is kept (returned alongside the error). -/
def boot (freshIds : List Str) (now : Nat) (o : Orch) (config : JSVal) :
    (Option JsErr × Orch) :=
  match bootConfig config with
  | .error e => (some e, o)
  | .ok c => bootCore freshIds now o c

/-! ## Engine error handling (C3) -/

/-- C3 counterexample: the program `"[Wo {]\n[Wo 1]"` contains a malformed
literal argument (`{` makes the engine call `JSON.parse`, which throws), and
`execute` aborts the whole run with the syntax error instead of skipping the
instruction — the following `[Wo 1]` is never dispatched, refuting the claim
for the unparseable-literal case. -/
theorem c3_counterexample :
    vmExecute 20 (.str (S "[Wo \x7b]\n[Wo 1]")) [] initVM = .error .jsonSyntax := rfl

/-- C3 (amended): for an *unrecognized opcode* the claim holds — the
dispatcher logs a diagnostic, leaves the state otherwise untouched, and the
loop continues with the remaining instructions.  (For an unparseable literal
argument the run aborts instead; see the counterexample.) -/
theorem c3_unknown_glyph_skipped (f : Nat) (g : Str) (args : List Str)
    (rest : List Inst) (s : VMState) (hh : s.halted = false)
    (hg : g ∉ [S "Pop", S "Wo", chenStr, S "Yax", S "Sek", kayabStr,
               kumkuStr, S "Xul"]) :
    vmRun (f + 1) (⟨g, args⟩ :: rest) s =
      vmRun f rest { s with dispatched := s.dispatched + 1,
                            log := s.log ++ [warnUnknown g] } := by
  simp only [List.mem_cons, List.not_mem_nil, or_false, not_or] at hg
  obtain ⟨h1, h2, h3, h4, h5, h6, h7, h8⟩ := hg
  have hstep : vmExecInst f ⟨g, args⟩ s =
      .ok { s with dispatched := s.dispatched + 1,
                   log := s.log ++ [warnUnknown g] } := by
    unfold vmExecInst
    simp only [if_neg h1, if_neg h2, if_neg h3, if_neg h4,
      if_neg h5, if_neg h6, if_neg h7, if_neg h8]
  simp only [vmRun, hh, Bool.false_eq_true, if_false, hstep]

theorem c3_unknown_glyph_skipped_witness :
    (initVM.halted = false ∧
      S "Zzz" ∉ [S "Pop", S "Wo", chenStr, S "Yax", S "Sek", kayabStr,
                 kumkuStr, S "Xul"]) ∧
    vmRun 6 [⟨S "Zzz", []⟩, ⟨S "Wo", [S "7"]⟩] initVM =
      vmRun 5 [⟨S "Wo", [S "7"]⟩]
        { initVM with dispatched := initVM.dispatched + 1,
                      log := initVM.log ++ [warnUnknown (S "Zzz")] } :=
  ⟨⟨rfl, by decide⟩,
    c3_unknown_glyph_skipped 5 (S "Zzz") [] [⟨S "Wo", [S "7"]⟩] initVM rfl
      (by decide)⟩

/-! ## Engine determinism (C8) -/

/-- C8: `execute` is deterministic — two runs on fresh engine instances
(`new KuhulVM()` is `initVM`) with identical instruction source and identical
seed context return equal values and equal final stack and variable maps.
The engine consults no other state, so this is immediate in the model. -/
theorem c8_execute_deterministic (fuel : Nat) (code : JSVal)
    (ctx : List (Str × JSVal)) (r1 r2 : JSVal) (s1 s2 : VMState)
    (h1 : vmExecute fuel code ctx initVM = .ok (r1, s1))
    (h2 : vmExecute fuel code ctx initVM = .ok (r2, s2)) :
    r1 = r2 ∧ s1.stack = s2.stack ∧ s1.vars = s2.vars := by
  rw [h1] at h2
  injection h2 with h
  injection h with hr hs
  exact ⟨hr, by rw [hs], by rw [hs]⟩

/-! ## Registry map lemmas -/

theorem kGet_kAssign_found {α : Type} (m : List (JSVal × α)) (k : JSVal)
    (x v : α) (h : kGet m k = some x) : kGet (kAssign m k v) k = some v := by
  induction m with
  | nil => simp [kGet] at h
  | cons p rest ih =>
    obtain ⟨k', v'⟩ := p
    by_cases hk : jsKeyEq k' k = true
    · simp [kAssign, kGet, hk]
    · simp only [kGet, hk, Bool.false_eq_true, if_false] at h
      simp [kAssign, kGet, hk, ih h]

theorem kGet_kAssign_selfEq {α : Type} (m : List (JSVal × α)) (k : JSVal)
    (v : α) (hk : jsKeyEq k k = true) : kGet (kAssign m k v) k = some v := by
  induction m with
  | nil => simp [kAssign, kGet, hk]
  | cons p rest ih =>
    obtain ⟨k', v'⟩ := p
    by_cases h : jsKeyEq k' k = true
    · simp [kAssign, kGet, h]
    · simp [kAssign, kGet, h, ih]

/-! ## Route resolution failures (C4) -/

/-- C4: `routeToShard` fails with the not-found errors — `Shard not found`
when the id names no registered shard, and `No handler for METHOD:path`
when the resolved shard has no (truthy) handler bound for the key.  Both are
`throw`s that the virtual-mesh request handler catches, so neither escapes
as an unhandled exception. -/
theorem c4_route_notfound (fuel : Nat) (o : Orch) (sid m p d : JSVal) :
    (kGet o.shards sid = none →
      routeToShard fuel o sid m p d = .error (.shardNotFound sid)) ∧
    (∀ inst, kGet o.shards sid = some inst →
      jsTruthy ((jsGet inst.handlers (handlerKey m p)).getD .undef) = false →
      routeToShard fuel o sid m p d =
        .error (.noHandler (handlerKey m p) sid)) := by
  constructor
  · intro h
    simp only [routeToShard, h]
  · intro inst h hf
    simp only [routeToShard, h, hf, Bool.false_eq_true, if_false]

/-- The shard instance used by the C4 witness: one handler on `GET:/a`
only. -/
def c4inst : ShardInst :=
  { id := .str (S "s1"), port := .num 3001, runtime := .str (S "kuhul"),
    api := [], view := .null, handlers := [(S "GET:/a", .str (S "[Wo 1]"))],
    state := [], vm := some initVM, created := 0 }

/-- The orchestrator used by the C4 witness. -/
def c4orch : Orch :=
  { id := .str (S "h"), shards := [(.str (S "s1"), c4inst)],
    meshProtocol := .str (S "virtual-rest"), meshPorts := [],
    registry := [], booted := false }

theorem c4_route_notfound_witness :
    (kGet (initOrch (S "h")).shards (.str (S "x")) = none ∧
      routeToShard 1 (initOrch (S "h")) (.str (S "x")) (.str (S "GET"))
          (.str (S "/a")) .null =
        .error (.shardNotFound (.str (S "x")))) ∧
    (kGet c4orch.shards (.str (S "s1")) = some c4inst ∧
      jsTruthy ((jsGet c4inst.handlers
          (handlerKey (.str (S "GET")) (.str (S "/z")))).getD .undef) = false ∧
      routeToShard 1 c4orch (.str (S "s1")) (.str (S "GET"))
          (.str (S "/z")) .null =
        .error (.noHandler (handlerKey (.str (S "GET")) (.str (S "/z")))
          (.str (S "s1")))) :=
  ⟨⟨rfl, (c4_route_notfound 1 (initOrch (S "h")) (.str (S "x")) (.str (S "GET"))
      (.str (S "/a")) .null).1 rfl⟩,
   ⟨rfl, rfl, (c4_route_notfound 1 c4orch (.str (S "s1")) (.str (S "GET"))
      (.str (S "/z")) .null).2 c4inst rfl rfl⟩⟩

/-! ## The halted flag is a latch (C9) -/

theorem vmRun_halted (fuel : Nat) (insts : List Inst) (s : VMState)
    (h : s.halted = true) : vmRun fuel insts s = .ok s := by
  cases insts with
  | nil =>
    unfold vmRun
    rfl
  | cons i rest =>
    unfold vmRun
    simp [h]

/-- C9: `Xul` sets the halted flag; a loop entered with the flag set returns
the state unchanged (the `if (this.halted) break` fires before any
dispatch); and a successful `routeToShard` on a shard whose persistent
engine is halted stores back an engine state with the same dispatch count,
stack and function table and the flag still set — the shard never runs
another handler instruction. -/
theorem c9_halted_latch :
    (∀ args s, (gXul args s).halted = true) ∧
    (∀ fuel insts s, s.halted = true → vmRun fuel insts s = .ok s) ∧
    (∀ fuel o sid m p d r o' inst vms,
      kGet o.shards sid = some inst → inst.vm = some vms →
      vms.halted = true →
      routeToShard (fuel + 1) o sid m p d = .ok (r, o') →
      ∃ vms', kGet o'.shards sid = some { inst with vm := some vms' } ∧
        vms'.dispatched = vms.dispatched ∧ vms'.halted = true ∧
        vms'.stack = vms.stack ∧ vms'.functions = vms.functions) := by
  refine ⟨fun args s => rfl, vmRun_halted, ?_⟩
  intro fuel o sid m p d r o' inst vms hs hvm hh hok
  have hseed : (seedVars (routeCtx inst m p d) vms).halted = true := hh
  have hrun : vmRun fuel
      (vmParse ((jsGet inst.handlers (handlerKey m p)).getD .undef))
      (seedVars (routeCtx inst m p d) vms) =
      .ok (seedVars (routeCtx inst m p d) vms) :=
    vmRun_halted _ _ _ hseed
  have hexec : vmExecute (fuel + 1)
      ((jsGet inst.handlers (handlerKey m p)).getD .undef)
      (routeCtx inst m p d) vms =
      .ok (vmResult (seedVars (routeCtx inst m p d) vms),
           seedVars (routeCtx inst m p d) vms) := by
    have hdef : vmExecute (fuel + 1)
        ((jsGet inst.handlers (handlerKey m p)).getD .undef)
        (routeCtx inst m p d) vms =
        match vmRun fuel
            (vmParse ((jsGet inst.handlers (handlerKey m p)).getD .undef))
            (seedVars (routeCtx inst m p d) vms) with
        | .error e => .error e
        | .ok s2 => .ok (vmResult s2, s2) := rfl
    rw [hdef, hrun]
  simp only [routeToShard, hs, hvm] at hok
  by_cases ht : jsTruthy ((jsGet inst.handlers (handlerKey m p)).getD .undef) = true
  · simp only [ht, if_true, hexec, Except.ok.injEq, Prod.mk.injEq] at hok
    obtain ⟨hr, ho⟩ := hok
    refine ⟨seedVars (routeCtx inst m p d) vms, ?_, rfl, hh, rfl, rfl⟩
    rw [← ho]
    exact kGet_kAssign_found o.shards sid inst _ hs
  · rw [if_neg ht] at hok
    exact Except.noConfusion hok

/-- The halted engine used by the C9 witness. -/
def c9vm : VMState := { initVM with halted := true }

/-- The C9 witness shard: engine already halted. -/
def c9inst : ShardInst :=
  { id := .str (S "s1"), port := .num 3001, runtime := .str (S "kuhul"),
    api := [], view := .null, handlers := [(S "GET:/a", .str (S "[Wo 1]"))],
    state := [], vm := some c9vm, created := 0 }

/-- The C9 witness orchestrator. -/
def c9orch : Orch :=
  { id := .str (S "h"), shards := [(.str (S "s1"), c9inst)],
    meshProtocol := .str (S "virtual-rest"), meshPorts := [],
    registry := [], booted := false }

/-- The engine state `routeToShard` stores back in the C9 witness run. -/
def c9vmAfter : VMState :=
  seedVars (routeCtx c9inst (.str (S "GET")) (.str (S "/a")) .null) c9vm

/-- The C9 witness shard after the call on the halted engine. -/
def c9instAfter : ShardInst := { c9inst with vm := some c9vmAfter }

/-- The C9 witness orchestrator after the call on the halted engine. -/
def c9orchAfter : Orch :=
  { c9orch with shards := kAssign c9orch.shards (.str (S "s1")) c9instAfter }

theorem c9_halted_latch_witness :
    (kGet c9orch.shards (.str (S "s1")) = some c9inst ∧
      c9inst.vm = some c9vm ∧ c9vm.halted = true ∧
      routeToShard 5 c9orch (.str (S "s1")) (.str (S "GET")) (.str (S "/a"))
          .null = .ok (vmResult c9vmAfter, c9orchAfter)) ∧
    (∃ vms', kGet c9orchAfter.shards (.str (S "s1")) =
        some { c9inst with vm := some vms' } ∧
      vms'.dispatched = c9vm.dispatched ∧ vms'.halted = true ∧
      vms'.stack = c9vm.stack ∧ vms'.functions = c9vm.functions) :=
  ⟨⟨rfl, rfl, rfl, rfl⟩,
    c9_halted_latch.2.2 4 c9orch (.str (S "s1")) (.str (S "GET"))
      (.str (S "/a")) .null (vmResult c9vmAfter) c9orchAfter
      c9inst c9vm rfl rfl rfl rfl⟩

/-! ## Engine state across routeToShard calls (C2) -/

/-- First route of the C2 demonstration shard: pushes the string `"x"`. -/
def c2r1 : JSVal :=
  .obj [(S "path", .str (S "/a")), (S "method", .str (S "GET")),
        (S "handler", .str (S "[Wo \"x\"]"))]

/-- Second route: its handler is a lone comment, so it parses to zero
instructions and pushes nothing. -/
def c2r2 : JSVal :=
  .obj [(S "path", .str (S "/b")), (S "method", .str (S "GET")),
        (S "handler", .str (S "# skip"))]

/-- The C2 shard definition with both routes. -/
def c2def : JSVal :=
  .obj [(S "id", .str (S "s1")), (S "api", .arr [c2r1, c2r2])]

/-- The shard instance `createShard` builds from `c2def`. -/
def c2inst0 : ShardInst :=
  { id := .str (S "s1"), port := .num 3001, runtime := .str (S "kuhul"),
    api := [c2r1, c2r2], view := .null,
    handlers := [(S "GET:/a", .str (S "[Wo \"x\"]")),
                 (S "GET:/b", .str (S "# skip"))],
    state := [], vm := some initVM, created := 0 }

/-- The registry record `createShard` builds from `c2def`. -/
def c2ent : RegEntry :=
  { id := .str (S "s1"), port := .num 3001,
    endpoints := [(.str (S "GET"), .str (S "/a")),
                  (.str (S "GET"), .str (S "/b"))] }

/-- The orchestrator right after `createShard`. -/
def c2o1 : Orch :=
  { id := .str (S "h"), shards := [(.str (S "s1"), c2inst0)],
    meshProtocol := .str (S "virtual-rest"), meshPorts := [],
    registry := [(.str (S "s1"), c2ent)], booted := false }

/-- The engine state after the first call: `"x"` is still on the stack. -/
def c2vm1 : VMState :=
  { stack := [.str (S "x")],
    vars := routeCtx c2inst0 (.str (S "GET")) (.str (S "/a")) .null,
    functions := [], currentFunction := none, loopContext := none,
    halted := false, dispatched := 1, log := [] }

/-- The shard after the first call. -/
def c2inst1 : ShardInst := { c2inst0 with vm := some c2vm1 }

/-- The orchestrator after the first call. -/
def c2o2 : Orch := { c2o1 with shards := [(.str (S "s1"), c2inst1)] }

/-- The engine state after the second call: only the seeded context
variables changed — the leftover stack survives. -/
def c2vm2 : VMState :=
  { c2vm1 with vars := routeCtx c2inst1 (.str (S "GET")) (.str (S "/b")) .null }

/-- The shard after the second call. -/
def c2inst2 : ShardInst := { c2inst0 with vm := some c2vm2 }

/-- The orchestrator after the second call. -/
def c2o3 : Orch := { c2o1 with shards := [(.str (S "s1"), c2inst2)] }

/-- C2 counterexample: the engine is created once per shard (at
`createShard`) and reused by every `routeToShard` call, so state leaks
between invocations.  The first call pushes `"x"`; the second call's
handler is a comment that parses to zero instructions and pushes nothing,
yet the call returns `"x"` — a stack value left over from the earlier call,
refuting the per-invocation-state claim. -/
theorem c2_counterexample :
    createShard (S "f") 0 (initOrch (S "h")) c2def = (c2o1, .ok c2inst0) ∧
    routeToShard 20 c2o1 (.str (S "s1")) (.str (S "GET")) (.str (S "/a"))
        .null = .ok (.str (S "x"), c2o2) ∧
    vmParse (.str (S "# skip")) = [] ∧
    routeToShard 20 c2o2 (.str (S "s1")) (.str (S "GET")) (.str (S "/b"))
        .null = .ok (.str (S "x"), c2o3) :=
  ⟨rfl, rfl, rfl, rfl⟩

/-- C2 (amended): engine state persists across calls — a successful
`routeToShard` on a shard with an engine stores back exactly the final
state of running the resolved handler on the engine state left by the
previous call (only the context variables are re-seeded); no reset to a
fresh engine happens. -/
theorem c2_engine_persists (fuel : Nat) (o : Orch) (sid m p d : JSVal)
    (inst : ShardInst) (vms : VMState) (r : JSVal) (o' : Orch)
    (hs : kGet o.shards sid = some inst) (hvm : inst.vm = some vms)
    (hok : routeToShard fuel o sid m p d = .ok (r, o')) :
    ∃ vms', vmExecute fuel
        ((jsGet inst.handlers (handlerKey m p)).getD .undef)
        (routeCtx inst m p d) vms = .ok (r, vms') ∧
      kGet o'.shards sid = some { inst with vm := some vms' } := by
  simp only [routeToShard, hs, hvm] at hok
  by_cases ht : jsTruthy ((jsGet inst.handlers (handlerKey m p)).getD .undef) = true
  · cases hexec : vmExecute fuel
        ((jsGet inst.handlers (handlerKey m p)).getD .undef)
        (routeCtx inst m p d) vms with
    | error e =>
      simp only [ht, if_true, hexec] at hok
      exact Except.noConfusion hok
    | ok pr =>
      obtain ⟨r0, vms'⟩ := pr
      simp only [ht, if_true, hexec, Except.ok.injEq, Prod.mk.injEq] at hok
      obtain ⟨hr, ho⟩ := hok
      subst hr
      refine ⟨vms', rfl, ?_⟩
      rw [← ho]
      exact kGet_kAssign_found o.shards sid inst _ hs
  · rw [if_neg ht] at hok
    exact Except.noConfusion hok

/-- The C2 witness shard. -/
def c2winst : ShardInst :=
  { id := .str (S "s1"), port := .num 3001, runtime := .str (S "kuhul"),
    api := [], view := .null, handlers := [(S "GET:/a", .str (S "[Wo 1]"))],
    state := [], vm := some initVM, created := 0 }

/-- The C2 witness orchestrator. -/
def c2worch : Orch :=
  { id := .str (S "h"), shards := [(.str (S "s1"), c2winst)],
    meshProtocol := .str (S "virtual-rest"), meshPorts := [],
    registry := [], booted := false }

/-- The engine state after the C2 witness call. -/
def c2wvmAfter : VMState :=
  { stack := [.num 1],
    vars := routeCtx c2winst (.str (S "GET")) (.str (S "/a")) .null,
    functions := [], currentFunction := none, loopContext := none,
    halted := false, dispatched := 1, log := [] }

/-- The C2 witness shard after the call. -/
def c2winstAfter : ShardInst := { c2winst with vm := some c2wvmAfter }

/-- The C2 witness orchestrator after the call. -/
def c2worchAfter : Orch :=
  { c2worch with shards := kAssign c2worch.shards (.str (S "s1")) c2winstAfter }

theorem c2_engine_persists_witness :
    (kGet c2worch.shards (.str (S "s1")) = some c2winst ∧
      c2winst.vm = some initVM ∧
      routeToShard 5 c2worch (.str (S "s1")) (.str (S "GET")) (.str (S "/a"))
          .null = .ok (.num 1, c2worchAfter)) ∧
    (∃ vms', vmExecute 5 ((jsGet c2winst.handlers
          (handlerKey (.str (S "GET")) (.str (S "/a")))).getD .undef)
        (routeCtx c2winst (.str (S "GET")) (.str (S "/a")) .null) initVM =
        .ok (.num 1, vms') ∧
      kGet c2worchAfter.shards (.str (S "s1")) =
        some { c2winst with vm := some vms' }) :=
  ⟨⟨rfl, rfl, rfl⟩,
    c2_engine_persists 5 c2worch (.str (S "s1")) (.str (S "GET"))
      (.str (S "/a")) .null c2winst initVM (.num 1) c2worchAfter rfl rfl rfl⟩

/-! ## Duplicate routes (C5) -/

/-- The `METHOD:path` key the handler-compilation loop builds for a route
(`route.method || route['⟁method'] || 'GET'` and `route.path ||
route['⟁path']`). -/
def routeKey (r : JSVal) : Str :=
  jsToString (propOrD r (S "method") (.str (S "GET"))) ++
    ':' :: jsToString (propOr r (S "path"))

theorem keyCount_jsAssign_le {α : Type} (m : List (Str × α)) (k k' : Str)
    (v : α) (h : keyCount m k' ≤ 1) : keyCount (jsAssign m k v) k' ≤ 1 := by
  by_cases hk : k = k'
  · subst hk
    rw [keyCount_jsAssign_self m k v h]
  · rw [keyCount_jsAssign_ne m k k' v (Ne.symm hk)]
    exact h

theorem jsGet_some_keyCount_pos {α : Type} (m : List (Str × α)) (k : Str)
    (v : α) (h : jsGet m k = some v) : 1 ≤ keyCount m k := by
  induction m with
  | nil => simp [jsGet] at h
  | cons p rest ih =>
    obtain ⟨k0, v0⟩ := p
    by_cases hk : k0 = k
    · simp [keyCount, hk]
    · simp only [jsGet, hk, Bool.false_eq_true, if_false] at h
      simp only [keyCount, hk, if_false]
      have := ih h
      omega

theorem compileHandlers_skip (routes : List JSVal) :
    ∀ (acc res : List (Str × JSVal)) (k : Str),
    compileHandlers routes acc = .ok res →
    (∀ r ∈ routes, routeKey r ≠ k) →
    jsGet res k = jsGet acc k := by
  induction routes with
  | nil =>
    intro acc res k hok _
    injection hok with h
    rw [h]
  | cons r rest ih =>
    intro acc res k hok hnone
    unfold compileHandlers at hok
    split at hok
    all_goals try exact Except.noConfusion hok
    all_goals
      rw [ih _ _ _ hok (fun x hx => hnone x (List.mem_cons_of_mem _ hx))]
      exact jsGet_jsAssign_ne _ _ _ _
        (Ne.symm (hnone _ (List.mem_cons_self _ _)))

theorem compileHandlers_get_last (pre : List JSVal) :
    ∀ (acc res : List (Str × JSVal)) (post : List JSVal) (r2 : JSVal),
    compileHandlers (pre ++ r2 :: post) acc = .ok res →
    (∀ x ∈ post, routeKey x ≠ routeKey r2) →
    jsGet res (routeKey r2) = some (propOr r2 (S "handler")) := by
  induction pre with
  | nil =>
    intro acc res post r2 hok hpost
    simp only [List.nil_append] at hok
    unfold compileHandlers at hok
    split at hok
    all_goals try exact Except.noConfusion hok
    all_goals
      rw [compileHandlers_skip post _ _ _ hok hpost]
      exact jsGet_jsAssign_self _ _ _
  | cons p pre ih =>
    intro acc res post r2 hok hpost
    simp only [List.cons_append] at hok
    unfold compileHandlers at hok
    split at hok
    all_goals try exact Except.noConfusion hok
    all_goals exact ih _ _ _ _ hok hpost

theorem compileHandlers_count (routes : List JSVal) :
    ∀ (acc res : List (Str × JSVal)) (k : Str),
    compileHandlers routes acc = .ok res →
    keyCount acc k ≤ 1 →
    keyCount res k ≤ 1 := by
  induction routes with
  | nil =>
    intro acc res k hok hle
    injection hok with h
    rw [← h]
    exact hle
  | cons r rest ih =>
    intro acc res k hok hle
    unfold compileHandlers at hok
    split at hok
    all_goals try exact Except.noConfusion hok
    all_goals exact ih _ _ _ hok (keyCount_jsAssign_le _ _ _ _ hle)

/-- A successful `mkShard` compiles the instance's handler map from its
own `api` list, starting from the empty map. -/
theorem mkShard_handlers (freshId : Str) (now : Nat) (o : Orch)
    (sv : JSVal) (o' : Orch) (inst : ShardInst)
    (hok : mkShard freshId now o sv = (o', .ok inst)) :
    compileHandlers inst.api [] = .ok inst.handlers := by
  unfold mkShard at hok
  split at hok
  · injection hok with h1 h2
    exact Except.noConfusion h2
  · injection hok with h1 h2
    exact Except.noConfusion h2
  · split at hok
    · split at hok
      · injection hok with h1 h2
        exact Except.noConfusion h2
      · injection hok with h1 h2
        injection h2 with h2
        subst h2
        rename_i hch
        exact hch
    · split at hok
      · injection hok with h1 h2
        exact Except.noConfusion h2
      · injection hok with h1 h2
        exact Except.noConfusion h2
    · injection hok with h1 h2
      exact Except.noConfusion h2

/-- A successful `createShard` compiles the instance's handler map from its
own `api` list, starting from the empty map. -/
theorem createShard_handlers (freshId : Str) (now : Nat) (o : Orch)
    (d : JSVal) (o' : Orch) (inst : ShardInst)
    (hok : createShard freshId now o d = (o', .ok inst)) :
    compileHandlers inst.api [] = .ok inst.handlers := by
  unfold createShard at hok
  split at hok
  · injection hok with h1 h2
    exact Except.noConfusion h2
  · exact mkShard_handlers _ _ _ _ _ _ hok

/-- C5: duplicate routes — when a successful `createShard` compiled an
`api` list containing two routes with the same `METHOD:path` key (and no
later route reuses it), the handler map holds exactly one binding for that
key, equal to the later-declared route's handler. -/
theorem c5_duplicate_route_last_wins (freshId : Str) (now : Nat) (o : Orch)
    (d : JSVal) (o' : Orch) (inst : ShardInst)
    (hok : createShard freshId now o d = (o', .ok inst))
    (pre mid post : List JSVal) (r1 r2 : JSVal)
    (happi : inst.api = pre ++ r1 :: mid ++ r2 :: post)
    (hdup : routeKey r1 = routeKey r2)
    (hpost : ∀ x ∈ post, routeKey x ≠ routeKey r2) :
    jsGet inst.handlers (routeKey r2) = some (propOr r2 (S "handler")) ∧
    keyCount inst.handlers (routeKey r2) = 1 := by
  have hch := createShard_handlers freshId now o d o' inst hok
  rw [happi] at hch
  have happi2 : pre ++ r1 :: mid ++ r2 :: post =
      (pre ++ r1 :: mid) ++ r2 :: post := by
    simp [List.append_assoc, List.cons_append]
  rw [happi2] at hch
  have hget := compileHandlers_get_last (pre ++ r1 :: mid) _ _ post r2 hch hpost
  refine ⟨hget, ?_⟩
  have hle := compileHandlers_count _ _ _ (routeKey r2) hch (by simp [keyCount])
  have hpos := jsGet_some_keyCount_pos _ _ _ hget
  omega

/-- The duplicate-route shard definition used by the C5 witness. -/
def c5r1 : JSVal :=
  .obj [(S "path", .str (S "/a")), (S "method", .str (S "GET")),
        (S "handler", .str (S "[Wo 1]"))]

/-- Second declaration of the same route, with a different handler. -/
def c5r2 : JSVal :=
  .obj [(S "path", .str (S "/a")), (S "method", .str (S "GET")),
        (S "handler", .str (S "[Wo 2]"))]

/-- The C5 witness shard definition. -/
def c5def : JSVal :=
  .obj [(S "id", .str (S "s1")), (S "api", .arr [c5r1, c5r2])]

/-- The shard instance `createShard` builds from `c5def`: the later
handler won. -/
def c5inst : ShardInst :=
  { id := .str (S "s1"), port := .num 3001, runtime := .str (S "kuhul"),
    api := [c5r1, c5r2], view := .null,
    handlers := [(S "GET:/a", .str (S "[Wo 2]"))],
    state := [], vm := some initVM, created := 0 }

/-- The registry record for the C5 witness shard. -/
def c5ent : RegEntry :=
  { id := .str (S "s1"), port := .num 3001,
    endpoints := [(.str (S "GET"), .str (S "/a")),
                  (.str (S "GET"), .str (S "/a"))] }

/-- The orchestrator after the C5 witness `createShard`. -/
def c5orch : Orch :=
  { id := .str (S "h"), shards := [(.str (S "s1"), c5inst)],
    meshProtocol := .str (S "virtual-rest"), meshPorts := [],
    registry := [(.str (S "s1"), c5ent)], booted := false }

theorem c5_duplicate_route_last_wins_witness :
    (createShard (S "f") 0 (initOrch (S "h")) c5def = (c5orch, .ok c5inst) ∧
      c5inst.api = [] ++ c5r1 :: [] ++ c5r2 :: [] ∧
      routeKey c5r1 = routeKey c5r2 ∧
      (∀ x ∈ ([] : List JSVal), routeKey x ≠ routeKey c5r2)) ∧
    (jsGet c5inst.handlers (routeKey c5r2) =
        some (propOr c5r2 (S "handler")) ∧
      keyCount c5inst.handlers (routeKey c5r2) = 1) :=
  ⟨⟨rfl, rfl, rfl, fun x hx => absurd hx (List.not_mem_nil x)⟩,
    c5_duplicate_route_last_wins (S "f") 0 (initOrch (S "h")) c5def c5orch
      c5inst rfl [] [] [] c5r1 c5r2 rfl rfl
      (fun x hx => absurd hx (List.not_mem_nil x))⟩

/-! ## Shard map / mesh registry consistency (C6) -/

/-- `SameValueZero` key equality is subsumed by structural equality: a
`true` comparison forces the two key values to coincide (objects and
arrays never compare `true`, not even with themselves). -/
theorem jsKeyEq_eq (a b : JSVal) (h : jsKeyEq a b = true) : a = b := by
  cases a <;> cases b <;> simp_all [jsKeyEq]

/-- Orchestrator states reachable through the public operations.  The
`createShard` step covers both successful and throwing calls, since a
failing call can still have mutated the shard map. -/
inductive Reach : Orch → Prop where
  | init (uid : Str) : Reach (initOrch uid)
  | create {o o' : Orch} {res : Except JsErr ShardInst} (fid : Str)
      (now : Nat) (d : JSVal) : Reach o →
      createShard fid now o d = (o', res) → Reach o'
  | bootStep {o o' : Orch} {e : Option JsErr} (ids : List Str) (now : Nat)
      (c : JSVal) : Reach o → boot ids now o c = (e, o') → Reach o'
  | route {o o' : Orch} {r : JSVal} (fuel : Nat) (sid m p d : JSVal) :
      Reach o → routeToShard fuel o sid m p d = .ok (r, o') → Reach o'

theorem kGet_kAssign_strong {α : Type} (m : List (JSVal × α)) (K k : JSVal)
    (v x : α) (h : kGet (kAssign m K v) k = some x) :
    kGet m k = some x ∨ (x = v ∧ jsKeyEq K k = true) := by
  induction m with
  | nil =>
    simp only [kAssign, kGet] at h
    by_cases hq : jsKeyEq K k = true
    · rw [if_pos hq] at h
      injection h with h
      exact Or.inr ⟨h.symm, hq⟩
    · rw [if_neg hq] at h
      exact Option.noConfusion h
  | cons p rest ih =>
    obtain ⟨k1, v1⟩ := p
    by_cases hK : jsKeyEq k1 K = true
    · simp only [kAssign, hK, if_true] at h
      by_cases hk : jsKeyEq k1 k = true
      · simp only [kGet, hk, if_true] at h
        injection h with h
        refine Or.inr ⟨h.symm, ?_⟩
        rw [← jsKeyEq_eq k1 K hK]
        exact hk
      · simp only [kGet, hk, Bool.false_eq_true, if_false] at h
        refine Or.inl ?_
        simp only [kGet, hk, Bool.false_eq_true, if_false]
        exact h
    · simp only [kAssign, hK, Bool.false_eq_true, if_false] at h
      by_cases hk : jsKeyEq k1 k = true
      · simp only [kGet, hk, if_true] at h
        refine Or.inl ?_
        simp only [kGet, hk, if_true]
        exact h
      · simp only [kGet, hk, Bool.false_eq_true, if_false] at h
        rcases ih h with h1 | h1
        · refine Or.inl ?_
          simp only [kGet, hk, Bool.false_eq_true, if_false]
          exact h1
        · exact Or.inr h1

theorem kGet_kAssign_mono {α : Type} (m : List (JSVal × α)) (K k : JSVal)
    (v x : α) (h : kGet m k = some x) :
    ∃ y, kGet (kAssign m K v) k = some y := by
  induction m with
  | nil => simp [kGet] at h
  | cons p rest ih =>
    obtain ⟨k1, v1⟩ := p
    by_cases hK : jsKeyEq k1 K = true
    · by_cases hk : jsKeyEq k1 k = true
      · exact ⟨v, by simp [kAssign, kGet, hK, hk]⟩
      · simp only [kGet, hk, Bool.false_eq_true, if_false] at h
        refine ⟨x, ?_⟩
        simp only [kAssign, hK, if_true, kGet, hk, Bool.false_eq_true, if_false]
        exact h
    · by_cases hk : jsKeyEq k1 k = true
      · exact ⟨v1, by simp [kAssign, kGet, hK, hk]⟩
      · simp only [kGet, hk, Bool.false_eq_true, if_false] at h
        obtain ⟨y, hy⟩ := ih h
        refine ⟨y, ?_⟩
        simp only [kAssign, hK, Bool.false_eq_true, if_false, kGet, hk]
        exact hy

/-- The registry stays covered by the shard map: every registry entry
resolves in the shard map.  (The converse can fail, and ports can go
stale, after a partially-mutating `createShard`.) -/
def regCovered (o : Orch) : Prop :=
  ∀ k ent, kGet o.registry k = some ent → ∃ inst, kGet o.shards k = some inst

theorem covered_assign_left (s : List (JSVal × ShardInst))
    (r : List (JSVal × RegEntry)) (K : JSVal) (inst : ShardInst)
    (h : ∀ k ent, kGet r k = some ent → ∃ i, kGet s k = some i) :
    ∀ k ent, kGet r k = some ent →
      ∃ i, kGet (kAssign s K inst) k = some i := by
  intro k ent hk
  obtain ⟨i, hi⟩ := h k ent hk
  exact kGet_kAssign_mono s K k inst i hi

theorem covered_assign_both (s : List (JSVal × ShardInst))
    (r : List (JSVal × RegEntry)) (K : JSVal) (inst : ShardInst)
    (ent : RegEntry)
    (h : ∀ k e, kGet r k = some e → ∃ i, kGet s k = some i) :
    ∀ k e, kGet (kAssign r K ent) k = some e →
      ∃ i, kGet (kAssign s K inst) k = some i := by
  intro k e hk
  rcases kGet_kAssign_strong r K k ent e hk with h1 | ⟨he, hq⟩
  · obtain ⟨i, hi⟩ := h k _ h1
    exact kGet_kAssign_mono s K k inst i hi
  · have hKk := jsKeyEq_eq _ _ hq
    subst hKk
    exact ⟨inst, kGet_kAssign_selfEq s K inst hq⟩

theorem mkShard_covered (freshId : Str) (now : Nat) (o : Orch) (sv : JSVal)
    (o' : Orch) (res : Except JsErr ShardInst)
    (hc : regCovered o) (hok : mkShard freshId now o sv = (o', res)) :
    regCovered o' := by
  unfold mkShard at hok
  split at hok
  · injection hok with h1 h2
    subst h1
    exact hc
  · injection hok with h1 h2
    subst h1
    exact hc
  · split at hok
    · split at hok
      · injection hok with h1 h2
        subst h1
        exact hc
      · injection hok with h1 h2
        subst h1
        exact covered_assign_both _ _ _ _ _ hc
    · split at hok
      · injection hok with h1 h2
        subst h1
        exact hc
      · injection hok with h1 h2
        subst h1
        exact covered_assign_left _ _ _ _ hc
    · injection hok with h1 h2
      subst h1
      exact hc

theorem createShard_covered (freshId : Str) (now : Nat) (o : Orch)
    (d : JSVal) (o' : Orch) (res : Except JsErr ShardInst)
    (hc : regCovered o) (hok : createShard freshId now o d = (o', res)) :
    regCovered o' := by
  unfold createShard at hok
  split at hok
  · injection hok with h1 h2
    subst h1
    exact hc
  · exact mkShard_covered _ _ _ _ _ _ hc hok

theorem routeToShard_covered (fuel : Nat) (o : Orch) (sid m p d : JSVal)
    (r : JSVal) (o' : Orch) (hc : regCovered o)
    (hok : routeToShard fuel o sid m p d = .ok (r, o')) :
    regCovered o' := by
  cases hs : kGet o.shards sid with
  | none =>
    unfold routeToShard at hok
    rw [hs] at hok
    exact Except.noConfusion hok
  | some shard =>
    simp only [routeToShard, hs] at hok
    by_cases ht : jsTruthy ((jsGet shard.handlers (handlerKey m p)).getD .undef) = true
    · cases hvm : shard.vm with
      | some vms =>
        simp only [hvm, ht, if_true] at hok
        cases hexec : vmExecute fuel
            ((jsGet shard.handlers (handlerKey m p)).getD .undef)
            (routeCtx shard m p d) vms with
        | error e =>
          simp only [hexec] at hok
          exact Except.noConfusion hok
        | ok pr =>
          obtain ⟨r0, vms'⟩ := pr
          simp only [hexec, Except.ok.injEq, Prod.mk.injEq] at hok
          obtain ⟨hr, ho⟩ := hok
          rw [← ho]
          exact covered_assign_left _ _ _ _ hc
      | none =>
        simp only [hvm, ht, if_true, Except.ok.injEq, Prod.mk.injEq] at hok
        obtain ⟨hr, ho⟩ := hok
        rw [← ho]
        exact hc
    · rw [if_neg ht] at hok
      exact Except.noConfusion hok

theorem bootShards_covered (now : Nat) (defs : List JSVal) :
    ∀ (ids : List Str) (o : Orch) (e : Option JsErr) (o' : Orch),
    regCovered o → bootShards now defs ids o = (e, o') →
    regCovered o' := by
  induction defs with
  | nil =>
    intro ids o e o' hc h
    injection h with h1 h2
    subst h2
    exact hc
  | cons d rest ih =>
    intro ids o e o' hc h
    unfold bootShards at h
    split at h
    · rename_i o1 e1 hcs
      injection h with h1 h2
      subst h2
      exact createShard_covered _ _ _ _ _ _ hc hcs
    · rename_i o1 inst hcs
      exact ih _ _ _ _ (createShard_covered _ _ _ _ _ _ hc hcs) h

theorem meshPortStep_shards (defs : List JSVal) (idx : Nat) (port : JSVal)
    (o : Orch) : (meshPortStep defs idx port o).shards = o.shards := by
  unfold meshPortStep
  cases defs.get? idx with
  | none => rfl
  | some sdef =>
    dsimp only
    by_cases ht : jsTruthy sdef = true
    · rw [if_pos ht]
    · rw [if_neg ht]

theorem meshPortStep_registry (defs : List JSVal) (idx : Nat) (port : JSVal)
    (o : Orch) : (meshPortStep defs idx port o).registry = o.registry := by
  unfold meshPortStep
  cases defs.get? idx with
  | none => rfl
  | some sdef =>
    dsimp only
    by_cases ht : jsTruthy sdef = true
    · rw [if_pos ht]
    · rw [if_neg ht]

theorem bootMeshPorts_fields (defs : List JSVal) :
    ∀ (ports : List JSVal) (idx : Nat) (o : Orch),
    (bootMeshPorts defs ports idx o).shards = o.shards ∧
    (bootMeshPorts defs ports idx o).registry = o.registry := by
  intro ports
  induction ports with
  | nil => intro idx o; exact ⟨rfl, rfl⟩
  | cons port rest ih =>
    intro idx o
    unfold bootMeshPorts
    constructor
    · rw [(ih (idx + 1) _).1, meshPortStep_shards]
    · rw [(ih (idx + 1) _).2, meshPortStep_registry]

theorem bootMesh_fields (sdefs : List JSVal) (c : JSVal) (o : Orch) :
    (bootMesh sdefs c o).2.shards = o.shards ∧
    (bootMesh sdefs c o).2.registry = o.registry := by
  unfold bootMesh
  by_cases ht : jsTruthy (propOr c (S "mesh")) = true
  · rw [if_pos ht]
    cases hp : propOrD (propOr c (S "mesh")) (S "ports") (.arr [])
    all_goals try exact ⟨rfl, rfl⟩
    all_goals exact ⟨(bootMeshPorts_fields sdefs _ 0 _).1,
      (bootMeshPorts_fields sdefs _ 0 _).2⟩
  · rw [if_neg ht]
    exact ⟨rfl, rfl⟩

theorem bootCore_covered (ids : List Str) (now : Nat) (o : Orch) (c : JSVal)
    (e : Option JsErr) (o' : Orch) (hc : regCovered o)
    (h : bootCore ids now o c = (e, o')) :
    regCovered o' := by
  unfold bootCore at h
  split at h
  · injection h with h1 h2
    subst h2
    exact hc
  · injection h with h1 h2
    subst h2
    exact hc
  · split at h
    · split at h
      · rename_i hbs
        injection h with h1 h2
        subst h2
        exact bootShards_covered now _ _
          { o with id := propOrD c (S "hive") o.id } _ _ hc hbs
      · rename_i o2 hbs
        have hcb := bootShards_covered now _ _
          { o with id := propOrD c (S "hive") o.id } _ _ hc hbs
        have h2 : (bootMesh _ c o2).2 = o' := congrArg Prod.snd h
        intro k ent hk
        rw [← h2, (bootMesh_fields _ _ _).2] at hk
        obtain ⟨i, hi⟩ := hcb k ent hk
        rw [← h2, (bootMesh_fields _ _ _).1]
        exact ⟨i, hi⟩
    · injection h with h1 h2
      subst h2
      exact hc

theorem boot_covered (ids : List Str) (now : Nat) (o : Orch) (c : JSVal)
    (e : Option JsErr) (o' : Orch) (hc : regCovered o)
    (h : boot ids now o c = (e, o')) :
    regCovered o' := by
  unfold boot at h
  split at h
  · injection h with h1 h2
    subst h2
    exact hc
  · exact bootCore_covered _ _ _ _ _ _ hc h

theorem Reach_covered (o : Orch) (h : Reach o) : regCovered o := by
  induction h with
  | init uid =>
    intro k ent hk
    simp [initOrch, kGet] at hk
  | create fid now d hr hcs ih => exact createShard_covered _ _ _ _ _ _ ih hcs
  | bootStep ids now c hr hb ih => exact boot_covered _ _ _ _ _ _ ih hb
  | route fuel sid m p d hr hrt ih =>
    exact routeToShard_covered _ _ _ _ _ _ _ _ ih hrt

/-- A successful `mkShard` leaves the new shard present in both maps with
the same port (for a `SameValueZero`-reflexive id — object ids compare by
reference, which a value model cannot express). -/
theorem mkShard_present (freshId : Str) (now : Nat) (o : Orch) (sv : JSVal)
    (o' : Orch) (inst : ShardInst)
    (hok : mkShard freshId now o sv = (o', .ok inst))
    (hrefl : jsKeyEq inst.id inst.id = true) :
    ∃ ent, kGet o'.shards inst.id = some inst ∧
      kGet o'.registry inst.id = some ent ∧ ent.port = inst.port := by
  unfold mkShard at hok
  split at hok
  · injection hok with h1 h2
    exact Except.noConfusion h2
  · injection hok with h1 h2
    exact Except.noConfusion h2
  · split at hok
    · split at hok
      · injection hok with h1 h2
        exact Except.noConfusion h2
      · injection hok with h1 h2
        injection h2 with h2
        subst h2
        subst h1
        exact ⟨_, kGet_kAssign_selfEq _ _ _ hrefl,
          kGet_kAssign_selfEq _ _ _ hrefl, rfl⟩
    · split at hok
      · injection hok with h1 h2
        exact Except.noConfusion h2
      · injection hok with h1 h2
        exact Except.noConfusion h2
    · injection hok with h1 h2
      exact Except.noConfusion h2

theorem createShard_present (freshId : Str) (now : Nat) (o : Orch)
    (d : JSVal) (o' : Orch) (inst : ShardInst)
    (hok : createShard freshId now o d = (o', .ok inst))
    (hrefl : jsKeyEq inst.id inst.id = true) :
    ∃ ent, kGet o'.shards inst.id = some inst ∧
      kGet o'.registry inst.id = some ent ∧ ent.port = inst.port := by
  unfold createShard at hok
  split at hok
  · injection hok with h1 h2
    exact Except.noConfusion h2
  · exact mkShard_present _ _ _ _ _ _ hok hrefl

/-- A shard definition whose `api` is a truthy string. -/
def c6bad : JSVal :=
  .obj [(S "id", .str (S "s1")), (S "api", .str (S "xy"))]

/-- The instance the string-`api` path stores before throwing: one
`GET:undefined` binding compiled from the iterated characters. -/
def c6badInst : ShardInst :=
  { id := .str (S "s1"), port := .num 3001, runtime := .str (S "kuhul"),
    api := [.str ['x'], .str ['y']], view := .null,
    handlers := [(S "GET:undefined", .undef)], state := [],
    vm := some initVM, created := 0 }

/-- The partially-mutated orchestrator the failing call leaves behind. -/
def c6badOrch : Orch :=
  { id := .str (S "h"), shards := [(.str (S "s1"), c6badInst)],
    meshProtocol := .str (S "virtual-rest"), meshPorts := [],
    registry := [], booted := false }

/-- C6 counterexample: `createShard` on a definition with the truthy
string `api` `"xy"` compiles character handlers, stores the shard in the
shard map, and only then throws (at the `endpoints` map, before
`registry.set`).  The resulting reachable state holds the shard in the
shard map with no registry record, refuting the claim that neither
registry ever holds a missing entry relative to the other. -/
theorem c6_counterexample :
    createShard (S "f") 0 (initOrch (S "h")) c6bad =
      (c6badOrch, .error .typeErr) ∧
    Reach c6badOrch ∧
    kGet c6badOrch.shards (.str (S "s1")) = some c6badInst ∧
    kGet c6badOrch.registry (.str (S "s1")) = none :=
  ⟨rfl, Reach.create (S "f") 0 c6bad (Reach.init (S "h")) rfl, rfl, rfl⟩

/-- C6 (amended): in every reachable orchestrator state the mesh registry
never holds an entry whose id is missing from the shard map, and after
every *successful* `createShard` the new shard's id is present in both
maps with the same port (for a `SameValueZero`-reflexive id; object ids
are matched by reference in JS, which the value model cannot express).
The converse of the original claim fails: a throwing string-`api`
`createShard` leaves a shard with no registry record — see the
counterexample. -/
theorem c6_mesh_consistency (o : Orch) (h : Reach o) :
    (∀ k ent, kGet o.registry k = some ent →
      ∃ inst, kGet o.shards k = some inst) ∧
    (∀ fid now d o' inst, createShard fid now o d = (o', .ok inst) →
      jsKeyEq inst.id inst.id = true →
      ∃ ent, kGet o'.shards inst.id = some inst ∧
        kGet o'.registry inst.id = some ent ∧ ent.port = inst.port) :=
  ⟨Reach_covered o h,
   fun fid now d o' inst hok hrefl =>
     createShard_present _ _ _ _ _ _ hok hrefl⟩

/-- The C6 witness shard definition. -/
def c6def : JSVal :=
  .obj [(S "id", .str (S "s1")), (S "port", .num 4000)]

/-- The shard instance `createShard` builds from `c6def`. -/
def c6inst : ShardInst :=
  { id := .str (S "s1"), port := .num 4000, runtime := .str (S "kuhul"),
    api := [], view := .null, handlers := [], state := [],
    vm := some initVM, created := 0 }

/-- The registry record for the C6 witness shard. -/
def c6ent : RegEntry :=
  { id := .str (S "s1"), port := .num 4000, endpoints := [] }

/-- The orchestrator after the C6 witness `createShard`. -/
def c6orchAfter : Orch :=
  { id := .str (S "h"), shards := [(.str (S "s1"), c6inst)],
    meshProtocol := .str (S "virtual-rest"), meshPorts := [],
    registry := [(.str (S "s1"), c6ent)], booted := false }

theorem c6_mesh_consistency_witness :
    (kGet c6orchAfter.registry (.str (S "s1")) = some c6ent ∧
      ∃ inst, kGet c6orchAfter.shards (.str (S "s1")) = some inst) ∧
    (createShard (S "f") 0 c6orchAfter c6def = (c6orchAfter, .ok c6inst) ∧
      jsKeyEq c6inst.id c6inst.id = true ∧
      ∃ ent, kGet c6orchAfter.shards c6inst.id = some c6inst ∧
        kGet c6orchAfter.registry c6inst.id = some ent ∧
        ent.port = c6inst.port) := by
  have hre : Reach c6orchAfter :=
    Reach.create (S "f") 0 c6def (Reach.init (S "h")) rfl
  have h := c6_mesh_consistency c6orchAfter hre
  exact ⟨⟨rfl, h.1 (.str (S "s1")) c6ent rfl⟩,
         ⟨rfl, rfl, h.2 (S "f") 0 c6def c6orchAfter c6inst rfl rfl⟩⟩

/-- The final engine state of the concrete run used to witness C8. -/
def c8finalState : VMState :=
  { stack := [.str (S "hello")], vars := [], functions := [],
    currentFunction := none, loopContext := none, halted := false,
    dispatched := 1, log := [] }

theorem c8_execute_deterministic_witness :
    vmExecute 20 (.str (S "[Wo \"hello\"]")) [] initVM =
      .ok (.str (S "hello"), c8finalState) ∧
    (JSVal.str (S "hello") = JSVal.str (S "hello") ∧
      c8finalState.stack = c8finalState.stack ∧
      c8finalState.vars = c8finalState.vars) := by
  have hrun : vmExecute 20 (.str (S "[Wo \"hello\"]")) [] initVM =
      .ok (.str (S "hello"), c8finalState) := rfl
  exact ⟨hrun, c8_execute_deterministic 20 (.str (S "[Wo \"hello\"]")) []
    (.str (S "hello")) (.str (S "hello")) c8finalState c8finalState hrun hrun⟩

end ASXR
